import Mathlib

/-!
Verification development for the QCO MoreUtils repository
(single-purpose command-line utilities: stat, tee, yes, no, ping, whois,
tree, kill, conf-convert, ...).

Each utility's relevant routines are shallowly embedded as executable Lean
definitions operating on `List Char` strings and `Nat`/`Int` integers, and
the behavioural claims about them are proved as theorems below the
definitions.  Machine-integer overflow is made explicit (`% 2^32`) where it
matters; operations that can fail return `Option`/`Except`.
-/

set_option linter.unusedVariables false

/-- Strings are modelled as lists of characters (one entry per byte of the
C/C++ `std::string`; all inputs considered here are ASCII). -/
abbrev Str := List Char

/-- C++ `std::string` `operator<`: lexicographic comparison by character
code. -/
def strLt : Str → Str → Bool
  | [], [] => false
  | [], _ :: _ => true
  | _ :: _, [] => false
  | a :: as, b :: bs => if a < b then true else if b < a then false else strLt as bs

/-- Characters removed by conf-convert's trimming calls
(`erase(0, find_first_not_of(" \t"))` and the symmetric suffix erase). -/
def isSpaceTab (c : Char) : Bool := c = ' ' || c = '\t'

/-- Trim leading and trailing spaces/tabs, as the repeated
`find_first_not_of(" \t")` / `find_last_not_of(" \t")` erases do. -/
def trimC (s : Str) : Str :=
  ((s.dropWhile isSpaceTab).reverse.dropWhile isSpaceTab).reverse

/-- ECMAScript regex `\s` character class (as used by `std::regex`):
space, tab, newline, vertical tab, form feed, carriage return. -/
def isRegexWs (c : Char) : Bool :=
  c = ' ' || c = '\t' || c = '\n' || c = '\x0b' || c = '\x0c' || c = '\r'

/-- ECMAScript regex `.`: any character except a line terminator.  For the
ASCII inputs considered here that excludes `\n` and `\r`. -/
def dotOk (c : Char) : Bool := c ≠ '\n' && c ≠ '\r'

/-- `std::getline` splitting of a text into lines: lines are separated by
`'\n'`; a trailing `'\n'` does not produce an extra empty line; empty input
yields no lines. -/
def splitLinesAux : Str → Str → List Str
  | [], cur => [cur.reverse]
  | '\n' :: [], cur => [cur.reverse]
  | '\n' :: rest, cur => cur.reverse :: splitLinesAux rest []
  | c :: rest, cur => splitLinesAux rest (c :: cur)

def splitLines : Str → List Str
  | [] => []
  | s => splitLinesAux s []

/-! ### conf-convert: the ordered key/value store (`std::map<string,string>`)

`config_data` is a `std::map`, i.e. a map ordered by `operator<` on keys in
which `m[k] = v` inserts or overwrites.  It is modelled as a sorted
association list. -/

/-- `config_data[key] = value` on the ordered `std::map`: insert keeping
keys strictly ascending, overwriting the value of an existing key. -/
def mapInsert : List (Str × Str) → Str → Str → List (Str × Str)
  | [], k, v => [(k, v)]
  | (k', v') :: rest, k, v =>
    if strLt k k' then (k, v) :: (k', v') :: rest
    else if strLt k' k then (k', v') :: mapInsert rest k v
    else (k, v) :: rest

/-- `std::map::find`-style lookup on the association list. -/
def mapLookup (m : List (Str × Str)) (k : Str) : Option Str :=
  match m.find? (fun p => p.1 == k) with
  | some p => some p.2
  | none => none

/-! ### conf-convert: INI input (`parseINI`) -/

/-- INI comment line: `^\s*[;#](.*)$` matches (the capture is only stored
when `--preserve-comments` is given, which the claims do not use). -/
def matchCommentI (line : Str) : Bool :=
  match line.dropWhile isRegexWs with
  | c :: rest => (c = ';' || c = '#') && rest.all dotOk
  | [] => false

/-- INI section header: `^\s*\[([^\]]+)\]\s*$`, returning the captured
section name. -/
def matchSectionI (line : Str) : Option Str :=
  match line.dropWhile isRegexWs with
  | '[' :: rest =>
    let grp := rest.takeWhile (fun c => c ≠ ']')
    let rest2 := rest.drop grp.length
    if grp.isEmpty then none
    else
      match rest2 with
      | ']' :: tail => if tail.all isRegexWs then some grp else none
      | _ => none
  | _ => none

/-- INI key/value line: `^\s*([^=]+)=(.*)$` followed by the trimming of
both captures performed by `parseINI`.  The greedy `\s*` consumes leading
regex whitespace before the key capture; when everything before the first
`'='` is whitespace, backtracking leaves exactly the last whitespace
character in the capture. -/
def matchKVI (line : Str) : Option (Str × Str) :=
  let pre := line.takeWhile (fun c => c ≠ '=')
  match line.drop pre.length with
  | '=' :: value =>
    if pre.isEmpty then none
    else if value.all dotOk then
      let pre1 := pre.dropWhile isRegexWs
      let grp := if pre1.isEmpty then pre.drop (pre.length - 1) else pre1
      some (trimC grp, trimC value)
    else none
  | _ => none

/-- One `parseINI` loop iteration: state is the current section name and
the map; comment lines are skipped, section lines update the section, and
key/value lines insert `section.key` (or plain `key` outside a section). -/
def iniStep (st : Str × List (Str × Str)) (line : Str) : Str × List (Str × Str) :=
  if matchCommentI line then st
  else
    match matchSectionI line with
    | some s => (s, st.2)
    | none =>
      match matchKVI line with
      | some (k, v) =>
        let fullKey := if st.1.isEmpty then k else st.1 ++ '.' :: k
        (st.1, mapInsert st.2 fullKey v)
      | none => st

/-- `parseINI`: fold the per-line processing over the `getline` lines,
starting from the empty section and empty map. -/
def parseINI (content : Str) : List (Str × Str) :=
  ((splitLines content).foldl iniStep ([], [])).2

/-! ### conf-convert: output generation -/

/-- `escapeJsonString`. -/
def escJson : Str → Str
  | [] => []
  | c :: rest =>
    (if c = '"' then ['\\', '"']
     else if c = '\\' then ['\\', '\\']
     else if c = '\n' then ['\\', 'n']
     else if c = '\r' then ['\\', 'r']
     else if c = '\t' then ['\\', 't']
     else [c]) ++ escJson rest

def isDigitC (c : Char) : Bool := '0' ≤ c && c ≤ '9'

/-- `isNumber`: `^-?\d+(?:\.\d+)?$`. -/
def isNumberStr (s : Str) : Bool :=
  let s1 := match s with
    | '-' :: rest => rest
    | _ => s
  let ds := s1.takeWhile isDigitC
  if ds.isEmpty then false
  else
    match s1.drop ds.length with
    | [] => true
    | '.' :: frac => !frac.isEmpty && frac.all isDigitC
    | _ => false

/-- `isBoolean`. -/
def isBooleanStr (s : Str) : Bool := s = "true".toList || s = "false".toList

/-- The value rendering used by `generateJSON`: numbers and booleans are
emitted bare, everything else is double-quoted and escaped. -/
def jsonValue (v : Str) : Str :=
  if isNumberStr v then v
  else if isBooleanStr v then v
  else '"' :: escJson v ++ ['"']

/-- The comma/newline-separated entry list of the pretty-printing branch of
`generateJSON` (`minify` is false by default and in all claims here). -/
def jsonEntryList (ind : Str) : List (Str × Str) → Str
  | [] => []
  | [(k, v)] => ind ++ '"' :: escJson k ++ "\": ".toList ++ jsonValue v
  | (k, v) :: rest =>
    (ind ++ '"' :: escJson k ++ "\": ".toList ++ jsonValue v)
      ++ ",\n".toList ++ jsonEntryList ind rest

/-- `generateJSON` (pretty-printing branch, `indent_size` spaces of
indentation, default 2). -/
def generateJSON (indentSize : Nat) (m : List (Str × Str)) : Str :=
  '\x7b' :: '\n' :: jsonEntryList (List.replicate indentSize ' ') m
    ++ '\n' :: '\x7d' :: []

/-- Index of the first space in a string (`std::string::find(' ')`),
`none` for `npos`. -/
def firstSpaceIdx : Str → Option Nat
  | [] => none
  | c :: rest => if c = ' ' then some 0 else (firstSpaceIdx rest).map (· + 1)

/-- `generateYAML`'s quoting test: the value contains `':'`, `'#'`, `'['`
or `']'`, or `find(' ')` equals `0` or `length()-1`.  (For the empty value
`find(' ')` is `npos` and `length()-1` underflows to `npos`, so the empty
value is quoted.) -/
def yamlNeedsQuote (v : Str) : Bool :=
  v.contains ':' || v.contains '#' || v.contains '[' || v.contains ']' ||
    (match firstSpaceIdx v with
     | some i => i = 0 || i + 1 = v.length
     | none => v.isEmpty)

/-- `generateYAML` (without `--preserve-comments`). -/
def generateYAML (m : List (Str × Str)) : Str :=
  m.foldl
    (fun acc p =>
      acc ++ p.1 ++ ": ".toList ++
        (if yamlNeedsQuote p.2 then '"' :: p.2 ++ ['"'] else p.2) ++ ['\n'])
    []

/-- `generateENV`'s key transformation: `::toupper` on each character, then
`'.'` replaced by `'_'`. -/
def envKey (k : Str) : Str :=
  k.map (fun c => if c = '.' then '_' else c.toUpper)

/-- `generateENV`'s quoting test. -/
def envNeedsQuote (v : Str) : Bool :=
  v.contains ' ' || v.contains '\t' || v.contains '#' || v.contains '$'

/-- `generateENV` (without `--preserve-comments`). -/
def generateENV (m : List (Str × Str)) : Str :=
  m.foldl
    (fun acc p =>
      acc ++ envKey p.1 ++ '=' ::
        (if envNeedsQuote p.2 then '"' :: p.2 ++ ['"'] else p.2) ++ ['\n'])
    []

/-- Insert into `generateINI`'s `std::map<string, std::map<string,string>>`
of sections. -/
def sinsert : List (Str × List (Str × Str)) → Str → Str → Str → List (Str × List (Str × Str))
  | [], sec, k, v => [(sec, [(k, v)])]
  | (s, im) :: rest, sec, k, v =>
    if strLt sec s then (sec, [(k, v)]) :: (s, im) :: rest
    else if strLt s sec then (s, im) :: sinsert rest sec k v
    else (s, mapInsert im k v) :: rest

/-- `generateINI`'s grouping loop: a key containing a `'.'` is split at its
first dot into section and section-local key; other keys go to the global
`""` section. -/
def sectionsOf (m : List (Str × Str)) : List (Str × List (Str × Str)) :=
  m.foldl
    (fun acc p =>
      let sec := p.1.takeWhile (fun c => c ≠ '.')
      if sec.length = p.1.length then sinsert acc [] p.1 p.2
      else sinsert acc sec (p.1.drop (sec.length + 1)) p.2)
    []

/-- The `key = value` lines of one section of `generateINI`'s output. -/
def iniPairsOut (ps : List (Str × Str)) : Str :=
  ps.foldl (fun acc p => acc ++ p.1 ++ " = ".toList ++ p.2 ++ ['\n']) []

/-- `generateINI` (without `--preserve-comments`): global keys first, then
each named section under its `[section]` header. -/
def generateINI (m : List (Str × Str)) : Str :=
  let secs := sectionsOf m
  let globOut :=
    match secs.find? (fun p => p.1.isEmpty) with
    | some p => iniPairsOut p.2 ++ ['\n']
    | none => []
  globOut ++
    secs.foldl
      (fun acc p =>
        if p.1.isEmpty then acc
        else acc ++ '[' :: p.1 ++ "]\n".toList ++ iniPairsOut p.2 ++ ['\n'])
      []

/-- The `--sort` step of `convert()`:
`std::map sorted_data(config_data.begin(), config_data.end())`, i.e. the
map rebuilt by inserting its entries in iteration order. -/
def sortStep (m : List (Str × Str)) : List (Str × Str) :=
  m.foldl (fun acc p => mapInsert acc p.1 p.2) []

/-- The data handed to the output generator by `convert()` for an already
parsed map: the optional `--sort` rebuild (key filtering is the identity
when no `--include`/`--exclude` options are given, as in all claims
here). -/
def convertData (sortFlag : Bool) (m : List (Str × Str)) : List (Str × Str) :=
  if sortFlag then sortStep m else m

/-- `conf-convert -f ini -t json` on in-memory content. -/
def iniToJson (sortFlag : Bool) (content : Str) : Str :=
  generateJSON 2 (convertData sortFlag (parseINI content))

/-- `conf-convert -f ini -t yaml` on in-memory content. -/
def iniToYaml (sortFlag : Bool) (content : Str) : Str :=
  generateYAML (convertData sortFlag (parseINI content))

/-- `conf-convert -f ini -t env` on in-memory content. -/
def iniToEnv (sortFlag : Bool) (content : Str) : Str :=
  generateENV (convertData sortFlag (parseINI content))

/-- `conf-convert -f ini -t ini` on in-memory content. -/
def iniToIni (sortFlag : Bool) (content : Str) : Str :=
  generateINI (convertData sortFlag (parseINI content))

example : parseINI "a=1\nb=2".toList = [([ 'a' ], [ '1' ]), ([ 'b' ], [ '2' ])] := by decide

example : iniToJson false "a=1\nb=two".toList =
    "\x7b\n  \"a\": 1,\n  \"b\": \"two\"\n\x7d".toList := by decide

/-! ### whois: server selection, referral extraction, query control flow -/

/-- Case-insensitive character equality (`std::regex_constants::icase`,
`strcasecmp`): compare lowercased characters. -/
def lowEq (a b : Char) : Bool := a.toLower = b.toLower

/-- Does `s` start with `pat`, case-insensitively? -/
def caseStarts : Str → Str → Bool
  | _, [] => true
  | [], _ :: _ => false
  | c :: cs, p :: ps => lowEq c p && caseStarts cs ps

/-- `isIPAddress`: `^(?:[0-9]{1,3}\.){3}[0-9]{1,3}$` or the full-form IPv6
pattern `^(?:[0-9a-fA-F]{1,4}:){7}[0-9a-fA-F]{1,4}$`, expressed as
segment-wise conditions on the `'.'`/`':'`-separated parts. -/
def splitOnChar (sep : Char) : Str → List Str
  | [] => [[]]
  | c :: rest =>
    if c = sep then [] :: splitOnChar sep rest
    else
      match splitOnChar sep rest with
      | p :: ps => (c :: p) :: ps
      | [] => [[c]]

def isHexDigitC (c : Char) : Bool :=
  isDigitC c || ('a' ≤ c && c ≤ 'f') || ('A' ≤ c && c ≤ 'F')

def isIPAddress (q : Str) : Bool :=
  (let ps := splitOnChar '.' q
   ps.length = 4 && ps.all (fun p => 1 ≤ p.length && p.length ≤ 3 && p.all isDigitC)) ||
  (let ps := splitOnChar ':' q
   ps.length = 8 && ps.all (fun p => 1 ≤ p.length && p.length ≤ 4 && p.all isHexDigitC))

/-- `extractTLD`: the substring after the last `'.'`, or `""` when there is
no dot or the dot is the final character. -/
def extractTLD (d : Str) : Str :=
  if d.contains '.' then (d.reverse.takeWhile (fun c => c ≠ '.')).reverse else []

/-- The `tld_servers` table. -/
def tldServers : List (Str × Str) :=
  [("com".toList, "whois.verisign-grs.com".toList),
   ("net".toList, "whois.verisign-grs.com".toList),
   ("org".toList, "whois.pir.org".toList),
   ("info".toList, "whois.afilias.net".toList),
   ("biz".toList, "whois.neulevel.biz".toList),
   ("us".toList, "whois.nic.us".toList),
   ("uk".toList, "whois.nic.uk".toList),
   ("de".toList, "whois.denic.de".toList),
   ("fr".toList, "whois.afnic.fr".toList),
   ("jp".toList, "whois.jprs.jp".toList),
   ("cn".toList, "whois.cnnic.cn".toList),
   ("ru".toList, "whois.tcinet.ru".toList),
   ("br".toList, "whois.registro.br".toList),
   ("au".toList, "whois.auda.org.au".toList),
   ("ca".toList, "whois.cira.ca".toList),
   ("edu".toList, "whois.educause.edu".toList),
   ("gov".toList, "whois.dotgov.gov".toList),
   ("mil".toList, "whois.nic.mil".toList),
   ("int".toList, "whois.iana.org".toList)]

/-- `selectServer`: an explicitly configured server wins; IP queries start
at ARIN; otherwise the lowercased TLD is looked up in `tld_servers` with
`whois.internic.net` as fallback. -/
def selectServer (server : Str) (query : Str) : Str :=
  if !server.isEmpty then server
  else if isIPAddress query then "whois.arin.net".toList
  else
    match tldServers.find? (fun p => p.1 == (extractTLD query).map Char.toLower) with
    | some p => p.2
    | none => "whois.internic.net".toList

/-- Matching one referral pattern at the start of `s`: the literal `lit1`
(case-insensitive), then greedy `\s*`, then the literal `lit2`
(`"whois://"` for the `ReferralServer` pattern, empty for the others), then
the `[^\s]+` capture. -/
def tryPatAt (lit1 lit2 s : Str) : Option Str :=
  if caseStarts s lit1 then
    let rest := (s.drop lit1.length).dropWhile isRegexWs
    if caseStarts rest lit2 then
      match (rest.drop lit2.length).takeWhile (fun c => !isRegexWs c) with
      | [] => none
      | g => some g
    else none
  else none

/-- `std::regex_search`: scan for the leftmost position where the pattern
matches. -/
def searchPat (lit1 lit2 : Str) : Str → Option Str
  | [] => none
  | c :: rest =>
    match tryPatAt lit1 lit2 (c :: rest) with
    | some g => some g
    | none => searchPat lit1 lit2 rest

/-- `extractReferralServer`: the four referral patterns are tried in
order; the first one that matches anywhere in the response yields its
capture, otherwise the result is `""`. -/
def extractReferralServer (resp : Str) : Str :=
  match searchPat "ReferralServer:".toList "whois://".toList resp with
  | some g => g
  | none =>
    match searchPat "Whois Server:".toList [] resp with
    | some g => g
    | none =>
      match searchPat "whois:".toList [] resp with
      | some g => g
      | none =>
        match searchPat "refer:".toList [] resp with
        | some g => g
        | none => []

/-- `WhoisClient::query`, abstracted over the network: `net s` is the full
response text read from server `s` for the fixed query target (`none` for
any socket/resolve/connect/send/recv failure, which `performQuery` turns
into an exception).  The result is the list of servers actually contacted
(in order) and the process exit code. -/
def whoisQuery (server : Str) (followReferrals : Bool) (target : Str)
    (net : Str → Option Str) : List Str × Nat :=
  let s1 := selectServer server target
  match net s1 with
  | none => ([s1], 1)
  | some r1 =>
    if r1.isEmpty then ([s1], 1)
    else if followReferrals && !isIPAddress target then
      let ref := extractReferralServer r1
      if !ref.isEmpty && ref ≠ s1 then
        match net ref with
        | none => ([s1, ref], 1)
        | some r2 => if r2.isEmpty then ([s1, ref], 1) else ([s1, ref], 0)
      else ([s1], 0)
    else ([s1], 0)

example :
    extractReferralServer "комментарий\nReferralServer:  whois://rs.example.net\n".toList
      = "rs.example.net".toList := by decide

example : selectServer [] "example.com".toList = "whois.verisign-grs.com".toList := by decide

example : isIPAddress "8.8.8.8".toList = true := by decide

/-! ### ping: `calculateChecksum`

The C routine reads the buffer as 16-bit words through a `uint16_t *`
(little-endian host order, i.e. `b0 + 256*b1`), accumulates them in a
`uint32_t` (arithmetic modulo `2^32`), adds a trailing odd byte as a single
byte, folds the carries with `while (sum >> 16)`, and returns the
complement truncated to 16 bits. -/

/-- The word/odd-byte accumulation loop, with the `uint32_t` wrap-around
made explicit. -/
def sumWordsM (sum : Nat) : List Nat → Nat
  | b0 :: b1 :: rest => sumWordsM ((sum + (b0 + 256 * b1)) % 4294967296) rest
  | [b] => (sum + b) % 4294967296
  | [] => sum

/-- `while (sum >> 16) sum = (sum & 0xFFFF) + (sum >> 16);`. -/
def foldCarry (sum : Nat) : Nat :=
  if sum < 65536 then sum
  else foldCarry (sum % 65536 + sum / 65536)
termination_by sum
decreasing_by
  have h2 : sum / 65536 ≥ 1 := Nat.one_le_div_iff (by norm_num) |>.mpr (by omega)
  have h4 : 65536 * (sum / 65536) ≥ 65536 * 1 := Nat.mul_le_mul_left _ h2
  omega

/-- `calculateChecksum` on a byte buffer: `return (uint16_t)(~sum);` is the
32-bit complement truncated to 16 bits. -/
def calculateChecksum (bytes : List Nat) : Nat :=
  (4294967295 - foldCarry (sumWordsM 0 bytes)) % 65536

/-- The 16-bit words of the buffer (little-endian pairs, trailing odd byte
as its own value), shared by the implementation above and the textbook
specification below. -/
def wordsOf : List Nat → List Nat
  | b0 :: b1 :: rest => (b0 + 256 * b1) :: wordsOf rest
  | [b] => [b]
  | [] => []

/-- Textbook 16-bit ones'-complement addition: add, and on carry out of
bit 15 wrap the carry back in (end-around carry). -/
def onesAdd16 (a b : Nat) : Nat :=
  if a + b < 65536 then a + b else a + b - 65535

/-- The RFC 1071 textbook checksum: complement of the ones'-complement sum
(computed with per-addition end-around carry) of the 16-bit words. -/
def rfc1071Checksum (bytes : List Nat) : Nat :=
  65535 - (wordsOf bytes).foldl onesAdd16 0

/-! ### stat: the `main` file loop -/

/-- The `stat` error message emitted by `print_stat` when `stat`/`lstat`
fails. -/
def statErrMsg : Str := "stat: cannot stat".toList

/-- The file loop of `stat`'s `main`: `exit_status` starts at `0`;
`print_stat` reports a failed `stat`/`lstat` on standard error and simply
returns, and nothing ever assigns `exit_status`.  The input records, per
named file, whether the `stat`/`lstat` call succeeds; the result is the
final `(exit status, stderr messages)`. -/
def statMainLoop (results : List Bool) : Nat × List Str :=
  results.foldl
    (fun st ok => if ok then st else (st.1, st.2 ++ [statErrMsg]))
    (0, [])

/-! ### tee: open loop, copy loop, error handling -/

inductive TeeErr where
  | openFail (name : Str)
  | writeFail (name : Str)
  | stdoutFail
  | readFail
deriving DecidableEq

/-- One named output file during the copy loop: its name, which chunk
writes succeed (`wok j` for the `j`-th chunk), whether its descriptor is
currently valid, and the chunks written to it so far. -/
structure TeeFd where
  name : Str
  wok : Nat → Bool
  valid : Bool
  written : List Nat

/-- The flags passed to `open(2)` by tee. -/
inductive OpenFlag where
  | wronly
  | creat
  | append
  | trunc
deriving DecidableEq

/-- `O_WRONLY | O_CREAT` plus `O_APPEND` under `-a` and `O_TRUNC`
otherwise. -/
def teeOpenFlags (appendFlag : Bool) : List OpenFlag :=
  [OpenFlag.wronly, OpenFlag.creat] ++
    [if appendFlag then OpenFlag.append else OpenFlag.trunc]

/-- The inner per-file write loop for one chunk `c` (chunk index `j`):
invalid descriptors are skipped; a failed write reports the file's name,
closes the descriptor and marks only that file invalid. -/
def teeStepFiles (j : Nat) (c : Nat) : List TeeFd → List TeeFd × List TeeErr
  | [] => ([], [])
  | f :: rest =>
    let next := teeStepFiles j c rest
    if f.valid then
      if f.wok j then ({ f with written := f.written ++ [c] } :: next.1, next.2)
      else ({ f with valid := false } :: next.1, TeeErr.writeFail f.name :: next.2)
    else (f :: next.1, next.2)

/-- The main read/write loop over the successfully read chunks: each chunk
goes to standard output first (a failed stdout write reports the error and
breaks the loop), then to every still-valid file.  Returns the chunks
copied to stdout, the final file states, the errors reported, and whether
the loop broke early. -/
def teeLoop (stdoutOk : Nat → Bool) (j : Nat) (chunks : List Nat)
    (fds : List TeeFd) : List Nat × List TeeFd × List TeeErr × Bool :=
  match chunks with
  | [] => ([], fds, [], false)
  | c :: rest =>
    if stdoutOk j then
      let step := teeStepFiles j c fds
      let rec1 := teeLoop stdoutOk (j + 1) rest step.1
      (c :: rec1.1, rec1.2.1, step.2 ++ rec1.2.2.1, rec1.2.2.2)
    else ([], fds, [TeeErr.stdoutFail], true)

structure TeeOut where
  stdoutChunks : List Nat
  fileChunks : List (List Nat)
  errs : List TeeErr
  exitCode : Nat

/-- `tee`'s `main` after option processing, abstracted over the
environment: `filesIn` gives, for each named file, its name, whether
`open(2)` succeeds, and which chunk writes succeed; `chunks` are the
successful `read(2)` results; `readErr` says whether the final `read`
returns `-1`.  A failed open reports the error and marks the slot invalid
(`fd = -1`); the copy loop then runs; because `bytes_read` is a `size_t`,
a final `read` error enters the loop body once more with `SIZE_MAX`, whose
stdout write fails (report + break), after which the `bytes_read == -1`
check reports the read error.  `main` always returns `EXIT_SUCCESS`. -/
def teeMain (filesIn : List (Str × Bool × (Nat → Bool))) (stdoutOk : Nat → Bool)
    (chunks : List Nat) (readErr : Bool) : TeeOut :=
  let fds0 := filesIn.map (fun f => TeeFd.mk f.1 f.2.2 f.2.1 [])
  let openErrs := filesIn.filterMap
    (fun f => if f.2.1 then none else some (TeeErr.openFail f.1))
  let lp := teeLoop stdoutOk 0 chunks fds0
  let readErrs :=
    if lp.2.2.2 then []
    else if readErr then [TeeErr.stdoutFail, TeeErr.readFail] else []
  { stdoutChunks := lp.1
    fileChunks := (lp.2.1).map TeeFd.written
    errs := openErrs ++ lp.2.2.1 ++ readErrs
    exitCode := 0 }

/-- Chunks delivered to one file: everything up to (not including) its
first failed write. -/
def takeOkFrom (p : Nat → Bool) (j : Nat) : List Nat → List Nat
  | [] => []
  | c :: rest => if p j then c :: takeOkFrom p (j + 1) rest else []

/-- Does any chunk write fail for this file within the chunk list? -/
def hasFailure (p : Nat → Bool) (j : Nat) : List Nat → Bool
  | [] => false
  | _ :: rest => if p j then hasFailure p (j + 1) rest else true

/-! ### yes / no / ping / tee: signal handlers and cancellation loops -/

/-- The observable effect of one signal-handler invocation: the new value
of the cancellation flag, the exit performed from inside the handler (if
any), and the messages written to standard error. -/
structure HandlerOut where
  flag : Bool
  exitCode : Option Nat
  stderrMsgs : List Str
deriving DecidableEq

/-- `yes`'s `handle_signal`: `keep_running = 0;`. -/
def yesHandleSignal (flag : Bool) : HandlerOut :=
  { flag := false, exitCode := none, stderrMsgs := [] }

/-- `no`'s `signalHandler`: `global_no->setRunning(false);`. -/
def noSignalHandler (flag : Bool) : HandlerOut :=
  { flag := false, exitCode := none, stderrMsgs := [] }

/-- `ping`'s `signalHandler`: `global_ping->setRunning(false);`. -/
def pingSignalHandler (flag : Bool) : HandlerOut :=
  { flag := false, exitCode := none, stderrMsgs := [] }

/-- `tee`'s `signal_handler`: an optional verbose message, then
`exit(EXIT_SUCCESS)` — the flag is untouched and the process terminates
from inside the handler. -/
def teeSignalHandler (verboseMode : Bool) (flag : Bool) : HandlerOut :=
  { flag := flag
    exitCode := some 0
    stderrMsgs := if verboseMode then ["Received signal".toList] else [] }

/-- The printed text of one iteration of `yes`'s output loop. -/
def yesPrinted (output : Str) (addNewline : Bool) : Str :=
  if addNewline then output ++ ['\n'] else output

/-- `yes`'s main loop `while (keep_running && (limit < 0 || count < limit))`
for a non-negative limit, with the cancellation flag held constant
(`keep = true` models a run during which no signal arrives); the remaining
iteration count `limit - count` decreases. -/
def yesLoop (keep : Bool) (line : Str) : Nat → List Str
  | 0 => []
  | n + 1 => if keep then line :: yesLoop keep line n else []

/-- `yes` `main` restricted to a run with `-l N` given: a negative limit is
rejected (`Error: Limit must be a non-negative number`, exit 1); otherwise
the loop prints and `main` returns `0`. -/
def yesMainLimited (output : Str) (addNewline : Bool) (limitArg : Int) :
    Nat × List Str :=
  if limitArg < 0 then (1, [])
  else (0, yesLoop true (yesPrinted output addNewline) limitArg.toNat)

/-- `no`'s `formatOutput`. -/
def noFormatOutput (outputText : Str) (polite enthusiastic sarcastic uppercase : Bool) :
    Str :=
  let result :=
    if polite then "No, thank you".toList
    else if enthusiastic then "NO!".toList
    else if sarcastic then "no... obviously".toList
    else outputText
  if uppercase && !enthusiastic && !polite && !sarcastic then
    result.map Char.toUpper
  else result

/-- The bounded branch of `no`'s `run` loop
(`for (int i = 0; i < count && running; ++i)`), with the flag constant. -/
def noRunLoop (keep : Bool) (line : Str) : Nat → List Str
  | 0 => []
  | n + 1 => if keep then line :: noRunLoop keep line n else []

/-- `no` `main` restricted to a run with `-c N` given: a negative count is
rejected (`no: count cannot be negative`, exit 1); otherwise `run` prints
the formatted line (followed by `std::endl`) `count` times — or nothing
under `-q` — and returns `0`. -/
def noMainWithCount (countArg : Int) (quiet : Bool) (formatted : Str) :
    Nat × List Str :=
  if countArg < 0 then (1, [])
  else (0, if quiet then [] else noRunLoop true (formatted ++ ['\n']) countArg.toNat)

/-! ### tree: directory walk with filters

The file system seen by one `tree` invocation is modelled as a value of
`FSEntry`; `fs::is_directory` is true exactly for the `dir` constructor
(symlinks to directories count as directories, as with the following
`std::filesystem` call), and the remaining attributes only influence the
colour of the printed name — every non-directory branch of the printing
code increments `fileCount`. -/

inductive FSEntry where
  | dir (name : Str) (children : List FSEntry)
  | file (name : Str) (isSymlink : Bool) (isExec : Bool)

def entryName : FSEntry → Str
  | .dir n _ => n
  | .file n _ _ => n

mutual
def entryHeight : FSEntry → Nat
  | .file _ _ _ => 0
  | .dir _ cs => 1 + heightList cs
def heightList : List FSEntry → Nat
  | [] => 0
  | c :: cs => max (entryHeight c) (heightList cs)
end

theorem heightList_ge_of_mem {c : FSEntry} {cs : List FSEntry} (h : c ∈ cs) :
    entryHeight c ≤ heightList cs := by
  induction cs with
  | nil => cases h
  | cons x xs ih =>
    cases h with
    | head => simp [heightList, Nat.le_max_left]
    | tail _ hx => exact le_trans (ih hx) (by simp [heightList, Nat.le_max_right])

/-- The `std::sort` on the collected child paths: within one directory the
paths share their prefix, so they are ordered by file name. -/
def insertByName (x : FSEntry) : List FSEntry → List FSEntry
  | [] => [x]
  | y :: ys =>
    if strLt (entryName x) (entryName y) then x :: y :: ys
    else y :: insertByName x ys

theorem mem_insertByName {z x : FSEntry} {l : List FSEntry}
    (h : z ∈ insertByName x l) : z = x ∨ z ∈ l := by
  induction l with
  | nil => simpa [insertByName] using h
  | cons y ys ih =>
    by_cases hc : strLt (entryName x) (entryName y) = true
    · simp [insertByName, hc] at h
      rcases h with h | h | h
      · exact Or.inl h
      · exact Or.inr (by simp [h])
      · exact Or.inr (by simp [h])
    · simp [insertByName, hc] at h
      rcases h with h | h
      · exact Or.inr (by simp [h])
      · rcases ih h with h1 | h1
        · exact Or.inl h1
        · exact Or.inr (by simp [h1])

def sortEntries (l : List FSEntry) : List FSEntry :=
  l.foldl (fun acc x => insertByName x acc) []

theorem mem_sortEntries {z : FSEntry} {l : List FSEntry}
    (h : z ∈ sortEntries l) : z ∈ l := by
  suffices H : ∀ (l acc : List FSEntry),
      z ∈ l.foldl (fun acc x => insertByName x acc) acc → z ∈ acc ∨ z ∈ l by
    rcases H l [] h with h1 | h1
    · cases h1
    · exact h1
  intro l
  induction l with
  | nil => intro acc h; exact Or.inl h
  | cons x xs ih =>
    intro acc h
    rcases ih (insertByName x acc) h with h1 | h1
    · rcases mem_insertByName h1 with h2 | h2
      · exact Or.inr (by simp [h2])
      · exact Or.inl h2
    · exact Or.inr (by simp [h1])

theorem height_lt_of_mem_sort {c : FSEntry} {n : Str} {cs : List FSEntry}
    (h : c ∈ sortEntries cs) :
    entryHeight c < entryHeight (FSEntry.dir n cs) := by
  have h1 := heightList_ge_of_mem (mem_sortEntries h)
  simp [entryHeight]
  omega

/-- `matchesPattern` for one pattern: a leading `'*'` means suffix match, a
trailing `'*'` means `filename.substr(0, prefix.size()) == prefix` (which
is false whenever the file name is shorter), otherwise exact equality.
(The empty pattern, for which the C++ index accesses would be out of
bounds, is modelled by the equality branch.) -/
def patMatches (filename : Str) (pat : Str) : Bool :=
  match pat with
  | [] => filename == pat
  | c :: _ =>
    if c = '*' then (pat.drop 1).isSuffixOf filename
    else if pat.getLast? = some '*' then filename.take (pat.length - 1) == pat.dropLast
    else filename == pat

/-- `matchesPattern`: no `-P` patterns means everything matches; otherwise
the patterns are tried in order. -/
def matchesPattern (patterns : List Str) (filename : Str) : Bool :=
  patterns.isEmpty || patterns.any (patMatches filename)

structure TreeOpts where
  showHidden : Bool := false
  onlyDirs : Bool := false
  onlyFiles : Bool := false
  maxDepth : Int := -1
  patterns : List Str := []

/-- The early-return cascade at the top of `printTree`: depth limit,
hidden-file filter, `-d`/`-f` filters, `-P` pattern filter. -/
def treeSkip (opts : TreeOpts) (name : Str) (isDir : Bool) (depth : Nat) : Bool :=
  (opts.maxDepth != -1 && opts.maxDepth < (depth : Int)) ||
  (!opts.showHidden && !name.isEmpty && name.headD ' ' == '.') ||
  (opts.onlyDirs && !isDir) || (opts.onlyFiles && isDir) ||
  !matchesPattern opts.patterns name

/-- The result of a `printTree` call: the `(name, is_directory)` entries
printed, and the `dirCount`/`fileCount` increments performed. -/
structure TreeRes where
  entries : List (Str × Bool)
  dirs : Nat
  files : Nat
deriving DecidableEq

/-- `printTree`: print the entry (directories increment `dirCount`, every
other kind of entry increments `fileCount`), then recurse into the sorted
children of a directory. -/
def printTree (opts : TreeOpts) (node : FSEntry) (depth : Nat) : TreeRes :=
  match node with
  | .file name _ _ =>
    if treeSkip opts name false depth then ⟨[], 0, 0⟩
    else ⟨[(name, false)], 0, 1⟩
  | .dir name cs =>
    if treeSkip opts name true depth then ⟨[], 0, 0⟩
    else
      let children := (sortEntries cs).attach.map
        (fun c => printTree opts c.1 (depth + 1))
      { entries := (name, true) :: (children.map TreeRes.entries).flatten
        dirs := 1 + (children.map TreeRes.dirs).sum
        files := (children.map TreeRes.files).sum }
termination_by entryHeight node
decreasing_by
  exact height_lt_of_mem_sort c.2

/-- `TreeUtil::run` on an existing root path: the root must be a
directory (otherwise an error is printed and no summary is produced); its
sorted children are printed at depth `0`, and the final
`"<dirs> directories, <files> files"` summary reports the accumulated
counters. -/
def treeRun (opts : TreeOpts) (root : FSEntry) : Option TreeRes :=
  match root with
  | .dir _ cs =>
    let children := (sortEntries cs).attach.map (fun c => printTree opts c.1 0)
    some
      { entries := (children.map TreeRes.entries).flatten
        dirs := (children.map TreeRes.dirs).sum
        files := (children.map TreeRes.files).sum }
  | .file _ _ _ => none

/-! ### kill: `parse_signal` and the signal table -/

/-- The 31 initialisers of `const char *signals[MAX_SIGNALS]` with
`MAX_SIGNALS = 32`: the 32nd slot is zero-initialised, i.e. a null
pointer. -/
def killSignalNames : List Str :=
  ["HUP", "INT", "QUIT", "ILL", "TRAP", "ABRT", "BUS", "FPE",
   "KILL", "USR1", "SEGV", "USR2", "PIPE", "ALRM", "TERM", "STKFLT",
   "CHLD", "CONT", "STOP", "TSTP", "TTIN", "TTOU", "URG", "XCPU",
   "XFSZ", "VTALRM", "PROF", "WINCH", "POLL", "PWR", "SYS"].map String.toList

/-- The `signals` array as scanned by the loops (`i < MAX_SIGNALS`):
31 names followed by the null 32nd entry. -/
def killSignalsTable : List (Option Str) := killSignalNames.map some ++ [none]

/-- `strcasecmp(a, b) == 0`. -/
def strCaseEq : Str → Str → Bool
  | [], [] => true
  | a :: as, b :: bs => lowEq a b && strCaseEq as bs
  | _, _ => false

/-- The name-matching loop of `parse_signal` over the table entries
starting at index `i`: a match returns `i + 1`; reaching the null 32nd
entry makes `strcasecmp(sig, NULL)` dereference a null pointer —
undefined behaviour, modelled as `Except.error ()`. -/
def parseSignalNames (sig : Str) (i : Nat) : List (Option Str) → Except Unit (Option Int)
  | [] => Except.ok none
  | some s :: rest =>
    if strCaseEq sig s || (sig.headD ' ' == '-' && strCaseEq (sig.drop 1) s) then
      Except.ok (some (Int.ofNat (i + 1)))
    else parseSignalNames sig (i + 1) rest
  | none :: _ => Except.error ()

/-- C `isspace` in the C locale (the characters `strtol` skips). -/
def isSpaceC (c : Char) : Bool :=
  c = ' ' || c = '\t' || c = '\n' || c = '\x0b' || c = '\x0c' || c = '\r'

/-- `strtol(sig, &end, 10)`: skip whitespace, optional sign, longest digit
run; returns the value and the rest of the string after `end` (arbitrary
precision — the only use compares against small bounds, for which clamping
to `LONG_MAX`/`LONG_MIN` makes no difference). -/
def strtolDec (s : Str) : Int × Str :=
  let s1 := s.dropWhile isSpaceC
  let signed : Bool × Str :=
    match s1 with
    | '-' :: rest => (true, rest)
    | '+' :: rest => (false, rest)
    | _ => (false, s1)
  let ds := signed.2.takeWhile isDigitC
  if ds.isEmpty then (0, s)
  else
    let v : Int := Int.ofNat (ds.foldl (fun acc c => acc * 10 + (c.toNat - 48)) 0)
    (if signed.1 then -v else v, signed.2.drop ds.length)

/-- `parse_signal`: the name loop over all `MAX_SIGNALS = 32` table slots
(undefined behaviour on the null 32nd slot is `Except.error ()`), then the
numeric branch `*end == '\0' && num > 0 && num <= MAX_SIGNALS`. -/
def parseSignal (sig : Str) : Except Unit Int :=
  match parseSignalNames sig 0 killSignalsTable with
  | Except.error () => Except.error ()
  | Except.ok (some v) => Except.ok v
  | Except.ok none =>
    let r := strtolDec sig
    if r.2.isEmpty && 0 < r.1 && r.1 ≤ 32 then Except.ok r.1 else Except.ok (-1)

example : parseSignal "TERM".toList = Except.ok 15 := rfl

example : parseSignal "-hup".toList = Except.ok 1 := rfl

example : parseSignal "5".toList = Except.error () := rfl

/-! ### Derived definitions used in theorem statements -/

/-- The per-line classification performed inside `parseINI`'s loop: the
key/value pair produced by a line, if any (comment and section lines
produce none). -/
def kvOf (line : Str) : Option (Str × Str) :=
  if matchCommentI line then none
  else
    match matchSectionI line with
    | some _ => none
    | none => matchKVI line

/-- The concrete JSON text `generateJSON` produces for a two-entry map at
the default indentation. -/
def jsonTwoEntries (k1 v1 k2 v2 : Str) : Str :=
  '\x7b' :: '\n' ::
    ("  ".toList ++ '"' :: escJson k1 ++ "\": ".toList ++ jsonValue v1) ++
    ",\n".toList ++
    ("  ".toList ++ '"' :: escJson k2 ++ "\": ".toList ++ jsonValue v2) ++
    '\n' :: '\x7d' :: []

/-- Rendering of a JSON object in which every value is double-quoted;
this follows the claim's words (each key "mapped to a string-valued
(double-quoted) value") and is compared against the implementation's
`generateJSON`. -/
def jsonEntryListAllQuoted (ind : Str) : List (Str × Str) → Str
  | [] => []
  | [(k, v)] => ind ++ '"' :: escJson k ++ "\": ".toList ++ ('"' :: escJson v ++ ['"'])
  | (k, v) :: rest =>
    (ind ++ '"' :: escJson k ++ "\": ".toList ++ ('"' :: escJson v ++ ['"']))
      ++ ",\n".toList ++ jsonEntryListAllQuoted ind rest

def generateJSONAllQuoted (indentSize : Nat) (m : List (Str × Str)) : Str :=
  '\x7b' :: '\n' :: jsonEntryListAllQuoted (List.replicate indentSize ' ') m
    ++ '\n' :: '\x7d' :: []

/-- Strict ascending order of the store's keys (the `std::map`
invariant). -/
def MapSorted (m : List (Str × Str)) : Prop :=
  List.Pairwise (fun p q => strLt p.1 q.1 = true) m

/-- Is a list of emitted key names in strictly ascending lexicographic
order? -/
def keysAscending : List Str → Bool
  | [] => true
  | [_] => true
  | a :: b :: rest => strLt a b && keysAscending (b :: rest)

/-- The key names emitted by `generateENV`, in emission order. -/
def envEmittedKeys (m : List (Str × Str)) : List Str :=
  m.map (fun p => envKey p.1)

/-- The key names emitted by `generateINI` (the names to the left of
`" = "`), in emission order: global keys first, then each section's local
key names. -/
def iniEmittedKeyNames (m : List (Str × Str)) : List Str :=
  let secs := sectionsOf m
  (match secs.find? (fun p => p.1.isEmpty) with
   | some p => p.2.map Prod.fst
   | none => []) ++
    secs.foldl (fun acc p => if p.1.isEmpty then acc else acc ++ p.2.map Prod.fst) []

/-- The per-file effect of running the tee copy loop from chunk index `j`
over a chunk list, when every stdout write succeeds: a valid file receives
every chunk up to its first failed write and its descriptor stays valid
only if no write failed; an invalid file is untouched. -/
def fdAdvance (j : Nat) (chunks : List Nat) (f : TeeFd) : TeeFd :=
  if f.valid then
    { f with written := f.written ++ takeOkFrom f.wok j chunks,
             valid := !hasFailure f.wok j chunks }
  else f

/-! ### Basic properties of `strLt` (the `std::string` order) -/

theorem bool_eq_false {b : Bool} (h : ¬ b = true) : b = false := by
  cases b
  · rfl
  · exact absurd rfl h

theorem strLt_cons (a b : Char) (as bs : Str) :
    strLt (a :: as) (b :: bs) =
      if a < b then true else if b < a then false else strLt as bs := rfl

theorem strLt_irrefl : ∀ a : Str, strLt a a = false := by
  intro a
  induction a with
  | nil => rfl
  | cons c cs ih => rw [strLt_cons]; simp [ih]

theorem strLt_asymm : ∀ a b : Str, strLt a b = true → strLt b a = false := by
  intro a
  induction a with
  | nil => intro b h; cases b <;> simp [strLt] at *
  | cons c cs ih =>
    intro b h
    cases b with
    | nil => simp [strLt] at h
    | cons d ds =>
      rw [strLt_cons] at h ⊢
      by_cases h1 : c < d
      · have h2 : ¬ d < c := fun hd => absurd (lt_trans h1 hd) (lt_irrefl c)
        simp [h1, h2]
      · by_cases h2 : d < c
        · simp [h1, h2] at h
        · simp [h1, h2] at h ⊢
          exact ih ds h

theorem strLt_eq_of_not : ∀ a b : Str, strLt a b = false → strLt b a = false → a = b := by
  intro a
  induction a with
  | nil => intro b h1 _; cases b <;> simp [strLt] at *
  | cons c cs ih =>
    intro b h1 h2
    cases b with
    | nil => simp [strLt] at h2
    | cons d ds =>
      rw [strLt_cons] at h1 h2
      by_cases hc : c < d
      · simp [hc] at h1
      · by_cases hd : d < c
        · simp [hc, hd] at h2
        · simp [hc, hd] at h1 h2
          have : c = d := le_antisymm (le_of_not_lt hd) (le_of_not_lt hc)
          rw [this, ih ds h1 h2]

theorem strLt_trans : ∀ a b c : Str, strLt a b = true → strLt b c = true → strLt a c = true := by
  intro a
  induction a with
  | nil =>
    intro b c h1 h2
    cases b with
    | nil => simp [strLt] at h1
    | cons d ds =>
      cases c with
      | nil => simp [strLt] at h2
      | cons e es => simp [strLt]
  | cons x xs ih =>
    intro b c h1 h2
    cases b with
    | nil => simp [strLt] at h1
    | cons y ys =>
      cases c with
      | nil => simp [strLt] at h2
      | cons z zs =>
        rw [strLt_cons] at h1 h2 ⊢
        by_cases hxy : x < y
        · by_cases hyz : y < z
          · simp [lt_trans hxy hyz]
          · by_cases hzy : z < y
            · simp [hyz, hzy] at h2
            · have : y = z := le_antisymm (le_of_not_lt hzy) (le_of_not_lt hyz)
              subst this
              simp [hxy]
        · by_cases hyx : y < x
          · simp [hxy, hyx] at h1
          · have hxy2 : x = y := le_antisymm (le_of_not_lt hyx) (le_of_not_lt hxy)
            subst hxy2
            simp [hxy, hyx] at h1
            by_cases hxz : x < z
            · simp [hxz]
            · by_cases hzx : z < x
              · simp [hxz, hzx] at h2
              · simp [hxz, hzx] at h2 ⊢
                exact ih ys zs h1 h2

theorem strLt_ne {a b : Str} (h : strLt a b = true) : a ≠ b := by
  intro he
  subst he
  rw [strLt_irrefl] at h
  exact Bool.false_ne_true h

/-! ### Claim C10: `kill`'s `parse_signal` -/

/-- C10: `parse_signal` was claimed to return `-1` or a value in `1..31`
for every input, with numeric strings accepted exactly in `1..31`.  In the
code the name loop runs over all `MAX_SIGNALS = 32` slots of a table with
only 31 initialisers, so for every input that matches none of the 31
names — in particular every numeric string — `strcasecmp` is called with
the null 32nd entry (undefined behaviour) before the numeric branch is
ever reached; the numeric bound is moreover `num <= 32`.  Name inputs that
do match return their index + 1 in `1..31`. -/
theorem kill_parse_signal_c10 :
    parseSignal "TERM".toList = Except.ok 15 ∧
    parseSignal "-HUP".toList = Except.ok 1 ∧
    parseSignal "sys".toList = Except.ok 31 ∧
    parseSignal "5".toList = Except.error () ∧
    parseSignal "32".toList = Except.error () ∧
    parseSignal "not-a-signal".toList = Except.error () :=
  ⟨rfl, rfl, rfl, rfl, rfl, rfl⟩

/-! ### Claim C2: signal handlers of `yes`, `no`, `tee`, `ping` -/

/-- C2 counterexample: `tee`'s `signal_handler` does not merely set a
flag — it terminates the process directly with `exit(EXIT_SUCCESS)`
(here at `verbose_mode = 0` and the flag in its initial state). -/
theorem tee_handler_terminates_c2_counterexample :
    (teeSignalHandler false true).exitCode ≠ none := by
  simp [teeSignalHandler]

/-- C2 (amended): the SIGINT/SIGTERM handlers of `yes`, `no` and `ping`
only clear the volatile cancellation flag and never exit or print; with
the flag cleared, the bounded output loops of `yes`/`no` stop before the
next iteration.  `tee`'s SIGINT handler instead terminates the process
directly with exit status `0` (after an optional verbose message), leaving
the flag untouched. -/
theorem signal_handlers_c2 :
    ∀ (f v : Bool) (line : Str) (n : Nat),
      yesHandleSignal f = ⟨false, none, []⟩ ∧
      noSignalHandler f = ⟨false, none, []⟩ ∧
      pingSignalHandler f = ⟨false, none, []⟩ ∧
      (teeSignalHandler v f).exitCode = some 0 ∧
      (teeSignalHandler v f).flag = f ∧
      yesLoop false line n = [] ∧
      noRunLoop false line n = [] := by
    intro f v line n
    refine ⟨rfl, rfl, rfl, rfl, rfl, ?_, ?_⟩
    · cases n <;> simp [yesLoop]
    · cases n <;> simp [noRunLoop]

/-! ### Claim C1: error reporting and exit status -/

/-- Helper: `stat`'s `main` loop never changes the initial exit status. -/
theorem statMainLoop_exit (results : List Bool) : (statMainLoop results).1 = 0 := by
  suffices H : ∀ (rs : List Bool) (acc : Nat × List Str),
      (rs.foldl (fun st ok => if ok then st else (st.1, st.2 ++ [statErrMsg])) acc).1 = acc.1 by
    exact H results (0, [])
  intro rs
  induction rs with
  | nil => intro acc; rfl
  | cons ok rest ih =>
    intro acc
    by_cases h : ok = true <;> simp [h, ih]

/-- C1: the claim says every utility exits non-zero after reporting an
operation failure.  In `stat`, a failed `stat`/`lstat` produces the error
message but `exit_status` is initialised to `0` and never assigned, so the
process exits `0`; in `tee`, a failed read from standard input produces
error reports and `main` still returns `EXIT_SUCCESS`.  The messages do go
to standard error, but the exit status contradicts the claim. -/
theorem error_exit_status_c1 :
    statMainLoop [false] = (0, [statErrMsg]) ∧
    (∀ results : List Bool, (statMainLoop results).1 = 0) ∧
    (teeMain [] (fun _ => true) [] true).exitCode = 0 ∧
    (teeMain [] (fun _ => true) [] true).errs = [TeeErr.stdoutFail, TeeErr.readFail] :=
  ⟨rfl, statMainLoop_exit, rfl, rfl⟩

/-! ### Claim C8: bounded print loops of `yes` and `no` -/

/-- Helper: the `yes` loop with the flag set prints the line once per
remaining iteration. -/
theorem yesLoop_replicate (line : Str) : ∀ n, yesLoop true line n = List.replicate n line := by
  intro n
  induction n with
  | zero => rfl
  | succ k ih => simp [yesLoop, ih, List.replicate_succ]

/-- Helper: the bounded `no` loop with the flag set prints the line once
per remaining iteration. -/
theorem noRunLoop_replicate (line : Str) : ∀ n, noRunLoop true line n = List.replicate n line := by
  intro n
  induction n with
  | zero => rfl
  | succ k ih => simp [noRunLoop, ih, List.replicate_succ]

/-- C8: with a count `N ≥ 0` given and no signal, `yes --limit N` prints
its output line exactly `N` times and exits `0`; `no --count N` (default
flags, so not quiet) prints its formatted line (default `"no"`) exactly
`N` times and exits `0`; a negative count/limit argument is rejected with
exit status `1`. -/
theorem yes_no_bounded_c8 :
    (∀ (out : Str) (nl : Bool) (N : Nat),
        yesMainLimited out nl (Int.ofNat N) = (0, List.replicate N (yesPrinted out nl))) ∧
    (∀ (fmt : Str) (N : Nat),
        noMainWithCount (Int.ofNat N) false fmt = (0, List.replicate N (fmt ++ ['\n']))) ∧
    noFormatOutput "no".toList false false false false = "no".toList ∧
    (∀ (out fmt : Str) (nl q : Bool) (z : Int), z < 0 →
        (yesMainLimited out nl z).1 = 1 ∧ (noMainWithCount z q fmt).1 = 1) := by
  refine ⟨?_, ?_, rfl, ?_⟩
  · intro out nl N
    have hN : ¬ (Int.ofNat N < 0) := Int.not_lt.mpr (Int.ofNat_nonneg N)
    simp [yesMainLimited, hN, yesLoop_replicate]
  · intro fmt N
    have hN : ¬ (Int.ofNat N < 0) := Int.not_lt.mpr (Int.ofNat_nonneg N)
    simp [noMainWithCount, hN, noRunLoop_replicate]
  · intro out fmt nl q z hz
    constructor
    · simp [yesMainLimited, hz]
    · simp [noMainWithCount, hz]

/-- C8 witness: at `N = 3` the `yes` loop over `"y"` with newline prints
three lines and exits `0`; at limit `-2` the exit status is `1`. -/
theorem yes_no_bounded_c8_witness :
    yesMainLimited "y".toList true (Int.ofNat 3) =
      (0, ["y\n".toList, "y\n".toList, "y\n".toList]) ∧
    (yesMainLimited "y".toList true (-2)).1 = 1 ∧
    noMainWithCount (Int.ofNat 2) false "no".toList = (0, ["no\n".toList, "no\n".toList]) := by
  refine ⟨?_, ?_, ?_⟩
  · rw [yes_no_bounded_c8.1 "y".toList true 3]; rfl
  · exact (yes_no_bounded_c8.2.2.2 "y".toList "no".toList true false (-2) (by decide)).1
  · rw [yes_no_bounded_c8.2.1 "no".toList 2]; rfl

/-! ### Claim C4: whois performs at most two round-trips -/

/-- C4: for every configuration, target and network behaviour, the whois
client contacts at most two servers; it contacts exactly two if and only
if the first query succeeds with a non-empty response, referral-following
is enabled, the target is not an IP address, and the referral server
extracted from the first response is non-empty and different from the
first server — in which case the trace is exactly
`[first server, referral server]`; otherwise the trace is just the first
server. -/
theorem whois_roundtrips_c4 (server target : Str) (follow : Bool)
    (net : Str → Option Str) :
    (whoisQuery server follow target net).1.length ≤ 2 ∧
    ((whoisQuery server follow target net).1.length = 2 ↔
      ∃ r1, net (selectServer server target) = some r1 ∧ r1 ≠ [] ∧
        follow = true ∧ isIPAddress target = false ∧
        extractReferralServer r1 ≠ [] ∧
        extractReferralServer r1 ≠ selectServer server target) ∧
    ((whoisQuery server follow target net).1.length = 2 →
      (whoisQuery server follow target net).1 =
        [selectServer server target,
         extractReferralServer ((net (selectServer server target)).getD [])]) ∧
    ((whoisQuery server follow target net).1.length ≠ 2 →
      (whoisQuery server follow target net).1 = [selectServer server target]) := by
  cases hnet : net (selectServer server target) with
  | none => simp [whoisQuery, hnet]
  | some r1 =>
    by_cases hr1 : r1 = []
    · subst hr1
      simp [whoisQuery, hnet]
    · by_cases hf : follow = true
      · by_cases hip : isIPAddress target = true
        · simp [whoisQuery, hnet, hr1, hf, hip]
        · have hip' : isIPAddress target = false := by
            cases h : isIPAddress target
            · rfl
            · exact absurd h hip
          by_cases hre : extractReferralServer r1 = []
          · simp [whoisQuery, hnet, hr1, hf, hip', hre]
          · by_cases hrs : extractReferralServer r1 = selectServer server target
            · simp [whoisQuery, hnet, hr1, hf, hip', hre, hrs]
            · cases hnet2 : net (extractReferralServer r1) with
              | none => simp [whoisQuery, hnet, hr1, hf, hip', hre, hrs, hnet2]
              | some r2 =>
                by_cases hr2 : r2 = []
                · simp [whoisQuery, hnet, hr1, hf, hip', hre, hrs, hnet2, hr2]
                · simp [whoisQuery, hnet, hr1, hf, hip', hre, hrs, hnet2, hr2]
      · have hf' : follow = false := by
          cases follow
          · rfl
          · exact absurd rfl hf
        simp [whoisQuery, hnet, hr1, hf']

/-- C4 witness: a concrete network in which `example.com`'s registry
response carries a referral produces exactly the two-server trace. -/
theorem whois_roundtrips_c4_witness :
    (whoisQuery [] true "example.com".toList
        (fun s =>
          if s == "whois.verisign-grs.com".toList
          then some "Whois Server: whois.markmonitor.com\n".toList
          else some "Domain: example.com\n".toList)).1
      = ["whois.verisign-grs.com".toList, "whois.markmonitor.com".toList] := by
  have h := whois_roundtrips_c4 [] "example.com".toList true
    (fun s =>
      if s == "whois.verisign-grs.com".toList
      then some "Whois Server: whois.markmonitor.com\n".toList
      else some "Domain: example.com\n".toList)
  have h2 := h.2.2.1 (h.2.1.mpr
    ⟨"Whois Server: whois.markmonitor.com\n".toList, by decide, by decide, rfl,
      by decide, by decide, by decide⟩)
  rw [h2]
  decide

/-! ### Claim C7: `tree -d` lists no plain files -/

/-- Helper: with `-d` (`onlyDirs`), every entry `printTree` prints is a
directory and its `fileCount` contribution is zero. -/
theorem printTree_onlyDirs (opts : TreeOpts) (hd : opts.onlyDirs = true) :
    ∀ (h : Nat) (node : FSEntry) (depth : Nat), entryHeight node ≤ h →
      (∀ e ∈ (printTree opts node depth).entries, e.2 = true) ∧
      (printTree opts node depth).files = 0 := by
  intro h
  induction h with
  | zero =>
    intro node depth hle
    cases node with
    | file name sym ex =>
      have hskip : treeSkip opts name false depth = true := by
        simp [treeSkip, hd]
      simp [printTree, hskip]
    | dir name cs =>
      exfalso
      simp [entryHeight] at hle
  | succ k ih =>
    intro node depth hle
    cases node with
    | file name sym ex =>
      have hskip : treeSkip opts name false depth = true := by
        simp [treeSkip, hd]
      simp [printTree, hskip]
    | dir name cs =>
      by_cases hskip : treeSkip opts name true depth = true
      · simp [printTree, hskip]
      · have hskip' : treeSkip opts name true depth = false := by
          cases h : treeSkip opts name true depth
          · rfl
          · exact absurd h hskip
        rw [printTree]
        simp only [hskip', Bool.false_eq_true, if_false]
        constructor
        · intro e he
          simp only [List.mem_cons] at he
          rcases he with he | he
          · rw [he]
          · rw [List.mem_flatten] at he
            rcases he with ⟨l, hl, hel⟩
            simp only [List.mem_map] at hl
            rcases hl with ⟨r, ⟨c, hc, hcr⟩, hrl⟩
            have hch : entryHeight c.1 ≤ k := by
              have := height_lt_of_mem_sort (n := name) c.2
              simp [entryHeight] at this hle ⊢
              omega
            have := (ih c.1 (depth + 1) hch).1
            rw [← hcr] at hrl
            rw [← hrl] at hel
            exact this e hel
        · apply List.sum_eq_zero
          intro x hx
          simp only [List.mem_map] at hx
          rcases hx with ⟨r, ⟨c, hc, hcr⟩, hrx⟩
          have hch : entryHeight c.1 ≤ k := by
            have := height_lt_of_mem_sort (n := name) c.2
            simp [entryHeight] at this hle ⊢
            omega
          have := (ih c.1 (depth + 1) hch).2
          rw [← hcr] at hrx
          rw [← hrx, this]

/-- C7: running `tree -d` on a directory prints only directory entries
below the root and reports a final file counter of zero. -/
theorem tree_only_dirs_c7 (opts : TreeOpts) (root : FSEntry) (res : TreeRes)
    (hd : opts.onlyDirs = true) (hr : treeRun opts root = some res) :
    (∀ e ∈ res.entries, e.2 = true) ∧ res.files = 0 := by
  cases root with
  | file name sym ex => simp [treeRun] at hr
  | dir name cs =>
    simp only [treeRun, Option.some.injEq] at hr
    subst hr
    constructor
    · intro e he
      simp only [List.mem_flatten, List.mem_map] at he
      rcases he with ⟨l, ⟨r, ⟨c, hc, hcr⟩, hrl⟩, hel⟩
      have := (printTree_onlyDirs opts hd (entryHeight c.1) c.1 0 le_rfl).1
      rw [← hcr] at hrl
      rw [← hrl] at hel
      exact this e hel
    · apply List.sum_eq_zero
      intro x hx
      simp only [List.mem_map] at hx
      rcases hx with ⟨r, ⟨c, hc, hcr⟩, hrx⟩
      have := (printTree_onlyDirs opts hd (entryHeight c.1) c.1 0 le_rfl).2
      rw [← hcr] at hrx
      rw [← hrx, this]

/-- C7 witness: `tree -d` over a directory containing one plain file and
one subdirectory prints only the subdirectory and counts zero files. -/
theorem tree_only_dirs_c7_witness :
    treeRun ⟨false, true, false, -1, []⟩
        (FSEntry.dir ['r'] [FSEntry.file ['f'] false false, FSEntry.dir ['d'] []])
      = some ⟨[(['d'], true)], 1, 0⟩ ∧
    (∀ e ∈ (⟨[(['d'], true)], 1, 0⟩ : TreeRes).entries, e.2 = true) ∧
    (⟨[(['d'], true)], 1, 0⟩ : TreeRes).files = 0 := by
  have heval : treeRun ⟨false, true, false, -1, []⟩
      (FSEntry.dir ['r'] [FSEntry.file ['f'] false false, FSEntry.dir ['d'] []])
      = some ⟨[(['d'], true)], 1, 0⟩ := by
    simp [treeRun, sortEntries, insertByName, entryName, printTree, treeSkip,
      matchesPattern, strLt]
  exact ⟨heval,
    tree_only_dirs_c7 ⟨false, true, false, -1, []⟩
      (FSEntry.dir ['r'] [FSEntry.file ['f'] false false, FSEntry.dir ['d'] []])
      ⟨[(['d'], true)], 1, 0⟩ rfl heval⟩

/-! ### Claim C6: tee's per-file failure handling -/

/-- Helper: the per-chunk file loop transforms each file state
independently. -/
theorem teeStepFiles_map (j c : Nat) (fds : List TeeFd) :
    (teeStepFiles j c fds).1 =
      fds.map (fun f =>
        if f.valid then
          (if f.wok j then { f with written := f.written ++ [c] }
           else { f with valid := false })
        else f) := by
  induction fds with
  | nil => rfl
  | cons f rest ih =>
    by_cases hv : f.valid = true
    · by_cases hw : f.wok j = true
      · simp [teeStepFiles, hv, hw, ih]
      · simp [teeStepFiles, hv, hw, ih]
    · have hv' : f.valid = false := by
        cases h : f.valid
        · rfl
        · exact absurd h hv
      simp [teeStepFiles, hv', ih]

/-- Helper: a valid file whose write fails in this chunk gets its error
reported by the per-chunk loop. -/
theorem teeStepFiles_errs (j c : Nat) (fds : List TeeFd) (f : TeeFd)
    (hf : f ∈ fds) (hv : f.valid = true) (hw : f.wok j = false) :
    TeeErr.writeFail f.name ∈ (teeStepFiles j c fds).2 := by
  induction fds with
  | nil => cases hf
  | cons g rest ih =>
    rcases List.mem_cons.mp hf with hg | hg
    · subst hg
      simp [teeStepFiles, hv, hw]
    · by_cases hgv : g.valid = true
      · by_cases hgw : g.wok j = true
        · simp only [teeStepFiles, hgv, hgw, if_true]
          exact ih hg
        · simp only [teeStepFiles, hgv, if_true, Bool.not_eq_true] at *
          simp only [hgw, Bool.false_eq_true, if_false, List.mem_cons]
          exact Or.inr (ih hg)
      · have hgv' : g.valid = false := by
          cases h : g.valid
          · rfl
          · exact absurd h hgv
        simp only [teeStepFiles, hgv', Bool.false_eq_true, if_false]
        exact ih hg

/-- Helper: advancing a file state over one successfully copied chunk and
then over the rest equals advancing it over the whole chunk list. -/
theorem fdAdvance_step (j c : Nat) (rest : List Nat) (f : TeeFd) :
    fdAdvance (j + 1) rest
      (if f.valid then
        (if f.wok j then { f with written := f.written ++ [c] }
         else { f with valid := false })
       else f) = fdAdvance j (c :: rest) f := by
  by_cases hv : f.valid = true
  · by_cases hw : f.wok j = true
    · simp [fdAdvance, hv, hw, takeOkFrom, hasFailure]
    · have hw' : f.wok j = false := by
        cases h : f.wok j
        · rfl
        · exact absurd h hw
      simp [fdAdvance, hv, hw', takeOkFrom, hasFailure]
  · have hv' : f.valid = false := by
      cases h : f.valid
      · rfl
      · exact absurd h hv
    simp [fdAdvance, hv']

/-- Helper: over an empty chunk list nothing advances. -/
theorem fdAdvance_nil (j : Nat) (f : TeeFd) : fdAdvance j [] f = f := by
  cases f with
  | mk n w v wr =>
    cases v
    · simp [fdAdvance]
    · simp [fdAdvance, takeOkFrom, hasFailure]

/-- Helper: when every stdout write succeeds, the copy loop copies every
chunk to stdout, never breaks, and advances each file state
independently. -/
theorem teeLoop_all (chunks : List Nat) :
    ∀ (j : Nat) (fds : List TeeFd),
      (teeLoop (fun _ => true) j chunks fds).1 = chunks ∧
      (teeLoop (fun _ => true) j chunks fds).2.1 = fds.map (fdAdvance j chunks) ∧
      (teeLoop (fun _ => true) j chunks fds).2.2.2 = false := by
  induction chunks with
  | nil =>
    intro j fds
    refine ⟨rfl, ?_, rfl⟩
    have hmap : ∀ l : List TeeFd, List.map (fdAdvance j []) l = l := by
      intro l
      induction l with
      | nil => rfl
      | cons f rest ih => simp [fdAdvance_nil, ih]
    simp only [teeLoop]
    exact (hmap fds).symm
  | cons c rest ih =>
    intro j fds
    have hstep := teeStepFiles_map j c fds
    have hrec := ih (j + 1) (teeStepFiles j c fds).1
    refine ⟨?_, ?_, ?_⟩
    · simp only [teeLoop, if_true]
      rw [hrec.1]
    · simp only [teeLoop, if_true]
      rw [hrec.2.1, hstep, List.map_map]
      apply List.map_congr_left
      intro f _
      exact fdAdvance_step j c rest f
    · simp only [teeLoop, if_true]
      exact hrec.2.2

/-- Helper: a valid file with a failing write somewhere in the chunk list
gets a `writeFail` report from the copy loop. -/
theorem teeLoop_errs (chunks : List Nat) :
    ∀ (j : Nat) (fds : List TeeFd) (f : TeeFd), f ∈ fds → f.valid = true →
      hasFailure f.wok j chunks = true →
      TeeErr.writeFail f.name ∈ (teeLoop (fun _ => true) j chunks fds).2.2.1 := by
  induction chunks with
  | nil =>
    intro j fds f hf hv hfail
    simp [hasFailure] at hfail
  | cons c rest ih =>
    intro j fds f hf hv hfail
    simp only [teeLoop, if_true, List.mem_append]
    by_cases hw : f.wok j = true
    · simp only [hasFailure, hw, if_true] at hfail
      refine Or.inr (ih (j + 1) (teeStepFiles j c fds).1
        { f with written := f.written ++ [c] } ?_ hv hfail)
      rw [teeStepFiles_map]
      exact List.mem_map.mpr ⟨f, hf, by simp [hv, hw]⟩
    · have hw' : f.wok j = false := by
        cases h : f.wok j
        · rfl
        · exact absurd h hw
      exact Or.inl (teeStepFiles_errs j c fds f hf hv hw')

/-- C6: with stdin chunks all read and stdout writes succeeding, tee copies
every chunk to standard output; each named file whose open succeeded
receives exactly the chunks before its first failed write (all of them if
none fails) and each file's outcome depends only on its own open/write
results; a failed open and the first failed write of a file are reported
on standard error as that file's error; files are opened
`O_WRONLY|O_CREAT|O_APPEND` under `-a` and `O_WRONLY|O_CREAT|O_TRUNC`
otherwise. -/
theorem tee_partial_failure_c6 (filesIn : List (Str × Bool × (Nat → Bool)))
    (chunks : List Nat) :
    (teeMain filesIn (fun _ => true) chunks false).stdoutChunks = chunks ∧
    (teeMain filesIn (fun _ => true) chunks false).fileChunks =
      filesIn.map (fun f => if f.2.1 then takeOkFrom f.2.2 0 chunks else []) ∧
    (∀ f ∈ filesIn, f.2.1 = false →
      TeeErr.openFail f.1 ∈ (teeMain filesIn (fun _ => true) chunks false).errs) ∧
    (∀ f ∈ filesIn, f.2.1 = true → hasFailure f.2.2 0 chunks = true →
      TeeErr.writeFail f.1 ∈ (teeMain filesIn (fun _ => true) chunks false).errs) ∧
    teeOpenFlags true = [OpenFlag.wronly, OpenFlag.creat, OpenFlag.append] ∧
    teeOpenFlags false = [OpenFlag.wronly, OpenFlag.creat, OpenFlag.trunc] := by
  have hall := teeLoop_all chunks 0 (filesIn.map (fun f => TeeFd.mk f.1 f.2.2 f.2.1 []))
  refine ⟨?_, ?_, ?_, ?_, rfl, rfl⟩
  · simp only [teeMain]
    exact hall.1
  · simp only [teeMain]
    rw [hall.2.1, List.map_map, List.map_map]
    apply List.map_congr_left
    intro f _
    by_cases ho : f.2.1 = true
    · simp [fdAdvance, ho]
    · have ho' : f.2.1 = false := by
        cases h : f.2.1
        · rfl
        · exact absurd h ho
      simp [fdAdvance, ho']
  · intro f hf ho
    simp only [teeMain, List.mem_append]
    refine Or.inl (Or.inl ?_)
    exact List.mem_filterMap.mpr ⟨f, hf, by simp [ho]⟩
  · intro f hf ho hfail
    simp only [teeMain, List.mem_append]
    refine Or.inl (Or.inr ?_)
    exact teeLoop_errs chunks 0 _ (TeeFd.mk f.1 f.2.2 f.2.1 [])
      (List.mem_map.mpr ⟨f, hf, rfl⟩) ho hfail

/-- C6 witness: two files, the first failing its second write, the second
failing to open: the first receives only the first chunk, the second
nothing, stdout receives everything, and both errors are reported. -/
theorem tee_partial_failure_c6_witness :
    (teeMain [("f".toList, true, fun j => j != 1), ("g".toList, false, fun _ => true)]
        (fun _ => true) [10, 20, 30] false).stdoutChunks = [10, 20, 30] ∧
    (teeMain [("f".toList, true, fun j => j != 1), ("g".toList, false, fun _ => true)]
        (fun _ => true) [10, 20, 30] false).fileChunks = [[10], []] ∧
    TeeErr.openFail "g".toList ∈
      (teeMain [("f".toList, true, fun j => j != 1), ("g".toList, false, fun _ => true)]
        (fun _ => true) [10, 20, 30] false).errs ∧
    TeeErr.writeFail "f".toList ∈
      (teeMain [("f".toList, true, fun j => j != 1), ("g".toList, false, fun _ => true)]
        (fun _ => true) [10, 20, 30] false).errs := by
  have h := tee_partial_failure_c6
    [("f".toList, true, fun j => j != 1), ("g".toList, false, fun _ => true)] [10, 20, 30]
  refine ⟨h.1, ?_, ?_, ?_⟩
  · rw [h.2.1]; decide
  · exact h.2.2.1 ("g".toList, false, fun _ => true) (by simp) rfl
  · exact h.2.2.2.1 ("f".toList, true, fun j => j != 1) (by simp) rfl (by decide)

/-! ### Claim C3: `conf-convert -f ini -t json` on a two-pair INI file -/

/-- Helper: over lines that contain no section header, `parseINI`'s fold
leaves the section empty and just inserts each key/value line. -/
theorem parseINI_noSections (lines : List Str)
    (hsec : ∀ l ∈ lines, matchSectionI l = none) :
    ∀ m : List (Str × Str),
      lines.foldl iniStep ([], m) =
        ([], (lines.filterMap kvOf).foldl (fun acc p => mapInsert acc p.1 p.2) m) := by
  induction lines with
  | nil => intro m; rfl
  | cons l rest ih =>
    intro m
    have hsl : matchSectionI l = none := hsec l (List.mem_cons_self l rest)
    have hrest : ∀ l' ∈ rest, matchSectionI l' = none :=
      fun l' hl' => hsec l' (List.mem_cons_of_mem l hl')
    by_cases hc : matchCommentI l = true
    · have h1 : iniStep ([], m) l = ([], m) := by
        simp [iniStep, hc]
      have h2 : kvOf l = none := by
        simp [kvOf, hc]
      simp only [List.foldl_cons, h1, List.filterMap_cons, h2]
      exact ih hrest m
    · have hc' : matchCommentI l = false := by
        cases h : matchCommentI l
        · rfl
        · exact absurd h hc
      cases hkv : matchKVI l with
      | none =>
        have h1 : iniStep ([], m) l = ([], m) := by
          simp [iniStep, hc', hsl, hkv]
        have h2 : kvOf l = none := by
          simp [kvOf, hc', hsl, hkv]
        simp only [List.foldl_cons, h1, List.filterMap_cons, h2]
        exact ih hrest m
      | some kv =>
        have h1 : iniStep ([], m) l = ([], mapInsert m kv.1 kv.2) := by
          simp [iniStep, hc', hsl, hkv]
        have h2 : kvOf l = some kv := by
          simp [kvOf, hc', hsl, hkv]
        simp only [List.foldl_cons, h1, List.filterMap_cons, h2]
        exact ih hrest (mapInsert m kv.1 kv.2)

/-- C3 counterexample to the claim as stated.  On the two-pair INI input
`"a=1\nb=2"` the produced JSON is `{"a": 1, "b": 2}` with bare numeric
values, not the all-double-quoted object the claim describes; and on the
two-pair input `"a=1\na=2"` (duplicate key) the object has a single key
rather than two. -/
theorem conf_ini_two_keys_c3_counterexample :
    iniToJson false "a=1\nb=2".toList ≠
      generateJSONAllQuoted 2 (parseINI "a=1\nb=2".toList) ∧
    iniToJson false "a=1\nb=2".toList =
      ('\x7b' :: "\n  \"a\": 1,\n  \"b\": 2\n".toList ++ ['\x7d']) ∧
    (parseINI "a=1\na=2".toList).length = 1 := by
  refine ⟨by decide, by decide, by decide⟩

/-- C3 (amended): for every INI input whose lines contain no section
header and exactly two key=value lines with distinct (trimmed) keys,
`conf-convert -f ini -t json` produces a JSON object with exactly those
two keys in ascending key order, where each value is double-quoted unless
it matches `^-?\d+(\.\d+)?$` or equals `true`/`false`, in which case it is
emitted bare. -/
theorem conf_ini_two_keys_c3 (content : Str) (k1 v1 k2 v2 : Str)
    (hsec : ∀ l ∈ splitLines content, matchSectionI l = none)
    (hkv : (splitLines content).filterMap kvOf = [(k1, v1), (k2, v2)])
    (hne : k1 ≠ k2) :
    parseINI content =
      (if strLt k1 k2 then [(k1, v1), (k2, v2)] else [(k2, v2), (k1, v1)]) ∧
    iniToJson false content =
      (if strLt k1 k2 then jsonTwoEntries k1 v1 k2 v2 else jsonTwoEntries k2 v2 k1 v1) := by
  have hp : parseINI content =
      (if strLt k1 k2 then [(k1, v1), (k2, v2)] else [(k2, v2), (k1, v1)]) := by
    have h1 := parseINI_noSections (splitLines content) hsec []
    rw [hkv] at h1
    have h2 : parseINI content = mapInsert (mapInsert [] k1 v1) k2 v2 := by
      simp [parseINI, h1]
    rw [h2]
    by_cases hlt : strLt k1 k2 = true
    · have hgt : strLt k2 k1 = false := strLt_asymm k1 k2 hlt
      simp [mapInsert, hlt, hgt]
    · have hlt' : strLt k1 k2 = false := by
        cases h : strLt k1 k2
        · rfl
        · exact absurd h hlt
      have hgt : strLt k2 k1 = true := by
        cases h : strLt k2 k1
        · exact absurd (strLt_eq_of_not k1 k2 hlt' h) hne
        · rfl
      simp [mapInsert, hlt', hgt]
  refine ⟨hp, ?_⟩
  rw [iniToJson, convertData, if_neg (by simp), hp]
  by_cases hlt : strLt k1 k2 = true
  · simp only [hlt, if_true]
    simp [generateJSON, jsonEntryList, jsonTwoEntries, List.replicate]
  · simp only [hlt, Bool.false_eq_true, if_false]
    simp [generateJSON, jsonEntryList, jsonTwoEntries, List.replicate]

/-- C3 witness: on `"b=2\na=hi"` the output object lists `a` (quoted,
non-numeric value) before `b` (bare numeric value). -/
theorem conf_ini_two_keys_c3_witness :
    iniToJson false "b=2\na=hi".toList =
      ('\x7b' :: "\n  \"a\": \"hi\",\n  \"b\": 2\n".toList ++ ['\x7d']) := by
  have h := conf_ini_two_keys_c3 "b=2\na=hi".toList
    "b".toList "2".toList "a".toList "hi".toList
    (by decide) (by decide) (by decide)
  rw [h.2]
  decide

/-! ### Claim C9: the ordered key/value store of conf-convert -/

/-- Helper: membership after a map insert. -/
theorem mem_mapInsert {q : Str × Str} {m : List (Str × Str)} {k v : Str}
    (h : q ∈ mapInsert m k v) : q = (k, v) ∨ q ∈ m := by
  induction m with
  | nil => simpa [mapInsert] using h
  | cons p rest ih =>
    by_cases h1 : strLt k p.1 = true
    · simp only [mapInsert, h1, if_true, List.mem_cons] at h
      rcases h with h | h | h
      · exact Or.inl h
      · exact Or.inr (by simp [h])
      · exact Or.inr (by simp [h])
    · by_cases h2 : strLt p.1 k = true
      · simp only [mapInsert, h1, h2, Bool.false_eq_true, if_false, if_true,
          List.mem_cons] at h
        rcases h with h | h
        · exact Or.inr (by simp [h])
        · rcases ih h with h3 | h3
          · exact Or.inl h3
          · exact Or.inr (by simp [h3])
      · simp only [mapInsert, h1, h2, Bool.false_eq_true, if_false,
          List.mem_cons] at h
        rcases h with h | h
        · exact Or.inl h
        · exact Or.inr (by simp [h])

/-- Helper: `mapInsert` preserves the strict key ordering of the store. -/
theorem mapInsert_sorted (m : List (Str × Str)) (k v : Str) (hm : MapSorted m) :
    MapSorted (mapInsert m k v) := by
  induction m with
  | nil => simp [mapInsert, MapSorted]
  | cons p rest ih =>
    rw [MapSorted, List.pairwise_cons] at hm
    by_cases h1 : strLt k p.1 = true
    · simp only [mapInsert, h1, if_true]
      rw [MapSorted, List.pairwise_cons]
      refine ⟨?_, ?_⟩
      · intro q hq
        rcases List.mem_cons.mp hq with hq | hq
        · rw [hq]; exact h1
        · exact strLt_trans _ _ _ h1 (hm.1 q hq)
      · rw [MapSorted] at *
        exact List.pairwise_cons.mpr hm
    · by_cases h2 : strLt p.1 k = true
      · simp only [mapInsert, h1, h2, Bool.false_eq_true, if_false, if_true]
        rw [MapSorted, List.pairwise_cons]
        refine ⟨?_, ih hm.2⟩
        intro q hq
        rcases mem_mapInsert hq with hq | hq
        · rw [hq]; exact h2
        · exact hm.1 q hq
      · have h1' : strLt k p.1 = false := by
          cases h : strLt k p.1
          · rfl
          · exact absurd h h1
        have h2' : strLt p.1 k = false := by
          cases h : strLt p.1 k
          · rfl
          · exact absurd h h2
        have hk : k = p.1 := strLt_eq_of_not k p.1 h1' h2'
        simp only [mapInsert, h1', h2', Bool.false_eq_true, if_false]
        rw [MapSorted, List.pairwise_cons]
        refine ⟨?_, hm.2⟩
        intro q hq
        rw [hk]
        exact hm.1 q hq

/-- Helper: inserting a key above every key of the store appends. -/
theorem mapInsert_append (acc : List (Str × Str)) (k v : Str)
    (hacc : ∀ p ∈ acc, strLt p.1 k = true) :
    mapInsert acc k v = acc ++ [(k, v)] := by
  induction acc with
  | nil => rfl
  | cons p rest ih =>
    have hp := hacc p (List.mem_cons_self p rest)
    have hlt : strLt k p.1 = false := strLt_asymm p.1 k hp
    simp only [mapInsert, hlt, Bool.false_eq_true, if_false, hp, if_true,
      List.cons_append, List.cons.injEq, true_and]
    exact ih (fun q hq => hacc q (List.mem_cons_of_mem p hq))

/-- Helper: re-inserting a sorted store's entries in order rebuilds the
same store (`--sort`'s `std::map sorted_data(begin, end)` is the
identity). -/
theorem sortStep_id (m : List (Str × Str)) (hm : MapSorted m) : sortStep m = m := by
  suffices H : ∀ (m acc : List (Str × Str)), MapSorted (acc ++ m) →
      m.foldl (fun acc p => mapInsert acc p.1 p.2) acc = acc ++ m by
    simpa using H m [] (by simpa using hm)
  intro m
  induction m with
  | nil => intro acc _; simp
  | cons p rest ih =>
    intro acc hs
    have hacc : ∀ q ∈ acc, strLt q.1 p.1 = true := by
      intro q hq
      have := (List.pairwise_append.mp hs).2.2 q hq p (List.mem_cons_self p rest)
      exact this
    simp only [List.foldl_cons]
    rw [mapInsert_append acc p.1 p.2 hacc]
    have : (acc ++ [(p.1, p.2)]) ++ rest = acc ++ p :: rest := by simp
    rw [ih (acc ++ [(p.1, p.2)]) (by rw [this]; exact hs)]
    simp

/-- Helper: `parseINI`'s per-line step keeps the store sorted. -/
theorem iniStep_sorted (st : Str × List (Str × Str)) (l : Str)
    (hm : MapSorted st.2) : MapSorted (iniStep st l).2 := by
  by_cases hc : matchCommentI l = true
  · simpa [iniStep, hc] using hm
  · have hc' : matchCommentI l = false := by
      cases h : matchCommentI l
      · rfl
      · exact absurd h hc
    cases hs : matchSectionI l with
    | some s => simpa [iniStep, hc', hs] using hm
    | none =>
      cases hkv : matchKVI l with
      | none => simpa [iniStep, hc', hs, hkv] using hm
      | some kv =>
        simp only [iniStep, hc', Bool.false_eq_true, if_false, hs, hkv]
        exact mapInsert_sorted _ _ _ hm

/-- Helper: the store built by `parseINI` is always sorted. -/
theorem parseINI_sorted (content : Str) : MapSorted (parseINI content) := by
  suffices H : ∀ (lines : List Str) (st : Str × List (Str × Str)), MapSorted st.2 →
      MapSorted (lines.foldl iniStep st).2 by
    exact H (splitLines content) ([], []) (by simp [MapSorted])
  intro lines
  induction lines with
  | nil => intro st h; exact h
  | cons l rest ih =>
    intro st h
    exact ih (iniStep st l) (iniStep_sorted st l h)

/-- Helper: the freshly inserted key is present. -/
theorem mapInsert_mem_keys (m : List (Str × Str)) (k v : Str) :
    k ∈ (mapInsert m k v).map Prod.fst := by
  induction m with
  | nil => simp [mapInsert]
  | cons p rest ih =>
    by_cases h1 : strLt k p.1 = true
    · simp [mapInsert, h1]
    · by_cases h2 : strLt p.1 k = true
      · simp only [mapInsert, h1, h2, Bool.false_eq_true, if_false, if_true,
          List.map_cons, List.mem_cons]
        exact Or.inr ih
      · simp [mapInsert, h1, h2]

/-- Helper: the value stored under the inserted key is the inserted
value (the last write wins). -/
theorem mapInsert_lookup (m : List (Str × Str)) (k v : Str) :
    mapLookup (mapInsert m k v) k = some v := by
  induction m with
  | nil => simp [mapInsert, mapLookup]
  | cons p rest ih =>
    by_cases h1 : strLt k p.1 = true
    · simp [mapInsert, h1, mapLookup]
    · by_cases h2 : strLt p.1 k = true
      · have hne : p.1 ≠ k := strLt_ne h2
        have hbeq : (p.1 == k) = false := by
          simp [hne]
        simp only [mapInsert, h1, h2, Bool.false_eq_true, if_false, if_true]
        simp only [mapLookup, List.find?_cons, hbeq] at ih ⊢
        exact ih
      · simp [mapInsert, h1, h2, mapLookup]

/-- Helper: other keys are untouched by an insert. -/
theorem mapInsert_lookup_other (m : List (Str × Str)) (k v k' : Str)
    (hk : k' ≠ k) :
    mapLookup (mapInsert m k v) k' = mapLookup m k' := by
  have hbeq : (k == k') = false := beq_eq_false_iff_ne.mpr (Ne.symm hk)
  induction m with
  | nil => simp [mapInsert, mapLookup, hbeq]
  | cons p rest ih =>
    by_cases h1 : strLt k p.1 = true
    · simp [mapInsert, h1, mapLookup, List.find?_cons, hbeq]
    · by_cases h2 : strLt p.1 k = true
      · simp only [mapInsert, h1, h2, Bool.false_eq_true, if_false, if_true]
        by_cases hp : (p.1 == k') = true
        · simp [mapLookup, List.find?_cons, hp]
        · have hp' : (p.1 == k') = false := by
            cases h : (p.1 == k')
            · rfl
            · exact absurd h hp
          simp only [mapLookup, List.find?_cons, hp'] at ih ⊢
          exact ih
      · have hk1 : k = p.1 :=
          strLt_eq_of_not k p.1 (bool_eq_false h1) (bool_eq_false h2)
        have hp' : (p.1 == k') = false := by
          rw [← hk1]; exact hbeq
        simp only [mapInsert, h1, h2, Bool.false_eq_true, if_false]
        simp [mapLookup, List.find?_cons, hbeq, hp']

/-- Helper: after an insert into a sorted store the keys are still free
of duplicates and the inserted key is present — i.e. a duplicate insert
collapsed into the existing entry. -/
theorem mapInsert_nodup_keys (m : List (Str × Str)) (k v : Str) (hm : MapSorted m) :
    ((mapInsert m k v).map Prod.fst).Nodup ∧ k ∈ (mapInsert m k v).map Prod.fst := by
  have hsorted : MapSorted (mapInsert m k v) := mapInsert_sorted m k v hm
  have hkeys : List.Pairwise (fun a b : Str => strLt a b = true)
      ((mapInsert m k v).map Prod.fst) := by
    rw [List.pairwise_map]
    exact hsorted
  exact ⟨hkeys.imp (fun h => strLt_ne h), mapInsert_mem_keys m k v⟩

/-- C9 counterexample to "ascending keys in every output format": the
`env` and `ini` generators emit *transformed* key names in store order,
which need not be ascending.  On the INI input `A_b=1` + section `[a]`
with `a=2`, the store is `{A_b, a.a}` (ascending) but the emitted env
names are `A_B` then `A_A` (descending); on `z=1` + `[b]`/`a=2` the INI
output emits global `z` before section-local `a`. -/
theorem conf_sorted_store_c9_counterexample :
    keysAscending (envEmittedKeys (convertData false
      (parseINI "A_b=1\n[a]\na=2\n".toList))) = false ∧
    iniToEnv false "A_b=1\n[a]\na=2\n".toList = "A_B=1\nA_A=2\n".toList ∧
    keysAscending (iniEmittedKeyNames (convertData false
      (parseINI "z=1\n[b]\na=2\n".toList))) = false ∧
    iniToIni false "z=1\n[b]\na=2\n".toList = "z = 1\n\n[b]\na = 2\n\n".toList := by
  refine ⟨by decide, by decide, by decide, by decide⟩

/-- C9 (amended): conf-convert's key/value store is an ordered map — the
store built from any INI input has strictly ascending keys (so the JSON
and YAML generators, which iterate it directly, emit keys in ascending
lexicographic order); duplicate keys collapse to a single entry whose
value is the last one written, other keys being unaffected; and `--sort`
never changes the output in any of the four formats (the INI and ENV
generators, however, emit transformed key names — section-local
respectively uppercased — whose emission order need not be ascending). -/
theorem conf_sorted_store_c9 :
    (∀ content : Str, MapSorted (parseINI content)) ∧
    (∀ (content : Str) (sortFlag : Bool),
        iniToJson sortFlag content = iniToJson false content ∧
        iniToYaml sortFlag content = iniToYaml false content ∧
        iniToEnv sortFlag content = iniToEnv false content ∧
        iniToIni sortFlag content = iniToIni false content) ∧
    (∀ (m : List (Str × Str)) (k v : Str), mapLookup (mapInsert m k v) k = some v) ∧
    (∀ (m : List (Str × Str)) (k v k' : Str), k' ≠ k →
        mapLookup (mapInsert m k v) k' = mapLookup m k') ∧
    (∀ (m : List (Str × Str)) (k v : Str), MapSorted m →
        ((mapInsert m k v).map Prod.fst).Nodup ∧
          k ∈ (mapInsert m k v).map Prod.fst) := by
  have hconv : ∀ (content : Str) (sortFlag : Bool),
      convertData sortFlag (parseINI content) = parseINI content := by
    intro content sortFlag
    cases sortFlag
    · rfl
    · simp only [convertData, if_true]
      exact sortStep_id (parseINI content) (parseINI_sorted content)
  refine ⟨parseINI_sorted, ?_, mapInsert_lookup, mapInsert_lookup_other, mapInsert_nodup_keys⟩
  intro content sortFlag
  refine ⟨?_, ?_, ?_, ?_⟩
  · simp only [iniToJson, hconv]
  · simp only [iniToYaml, hconv]
  · simp only [iniToEnv, hconv]
  · simp only [iniToIni, hconv]

/-- C9 witness: the concrete two-key store of `"b=1\na=2"` is sorted,
`--sort` does not change its JSON output, and inserting a duplicate key
leaves one entry holding the new value. -/
theorem conf_sorted_store_c9_witness :
    MapSorted (parseINI "b=1\na=2".toList) ∧
    iniToJson true "b=1\na=2".toList = iniToJson false "b=1\na=2".toList ∧
    mapLookup (mapInsert [("a".toList, "1".toList)] "a".toList "2".toList)
      "a".toList = some "2".toList ∧
    ((mapInsert [("a".toList, "1".toList)] "a".toList "2".toList).map
      Prod.fst).Nodup :=
  ⟨conf_sorted_store_c9.1 "b=1\na=2".toList,
   (conf_sorted_store_c9.2.1 "b=1\na=2".toList true).1,
   conf_sorted_store_c9.2.2.1 [("a".toList, "1".toList)] "a".toList "2".toList,
   (conf_sorted_store_c9.2.2.2.2 [("a".toList, "1".toList)] "a".toList "2".toList
     (by rw [MapSorted]; decide)).1⟩

/-! ### Claim C5: ping's ICMP checksum -/

/-- Helper: the accumulation loop computes the exact word sum modulo
`2^32`. -/
theorem sumWordsM_eq : ∀ (bytes : List Nat) (s : Nat), s < 4294967296 →
    sumWordsM s bytes = (s + (wordsOf bytes).sum) % 4294967296 := by
  intro bytes
  induction bytes using wordsOf.induct with
  | case1 b0 b1 rest ih =>
    intro s hs
    rw [sumWordsM, ih _ (Nat.mod_lt _ (by norm_num)), wordsOf]
    simp only [List.sum_cons]
    rw [Nat.mod_add_mod]
    ring_nf
  | case2 b =>
    intro s hs
    rw [sumWordsM, wordsOf]
    simp
  | case3 =>
    intro s hs
    rw [sumWordsM, wordsOf]
    simp [Nat.mod_eq_of_lt hs]

/-- Helper: with byte values below 256, every 16-bit word is at most
`0xFFFF`. -/
theorem wordsOf_le : ∀ bytes : List Nat, (∀ b ∈ bytes, b < 256) →
    ∀ w ∈ wordsOf bytes, w ≤ 65535 := by
  intro bytes
  induction bytes using wordsOf.induct with
  | case1 b0 b1 rest ih =>
    intro hb w hw
    rw [wordsOf] at hw
    rcases List.mem_cons.mp hw with hw | hw
    · have h0 := hb b0 (by simp)
      have h1 := hb b1 (by simp)
      omega
    · exact ih (fun b hbr => hb b (by simp [hbr])) w hw
  | case2 b =>
    intro hb w hw
    rw [wordsOf] at hw
    rcases List.mem_cons.mp hw with hw | hw
    · have := hb b (by simp)
      omega
    · cases hw
  | case3 =>
    intro _ w hw
    rw [wordsOf] at hw
    cases hw

/-- Helper: a buffer of `n` bytes has at most `(n+1)/2` words. -/
theorem wordsOf_len : ∀ bytes : List Nat, 2 * (wordsOf bytes).length ≤ bytes.length + 1 := by
  intro bytes
  induction bytes using wordsOf.induct with
  | case1 b0 b1 rest ih =>
    rw [wordsOf]
    simp only [List.length_cons]
    omega
  | case2 b => rw [wordsOf]; simp
  | case3 => rw [wordsOf]; simp

/-- Helper: bound on a sum of bounded words. -/
theorem sum_le_length_mul : ∀ ws : List Nat, (∀ w ∈ ws, w ≤ 65535) →
    ws.sum ≤ ws.length * 65535 := by
  intro ws
  induction ws with
  | nil => simp
  | cons w rest ih =>
    intro hw
    simp only [List.sum_cons, List.length_cons]
    have h1 := hw w (by simp)
    have h2 := ih (fun x hx => hw x (by simp [hx]))
    omega

/-- Helper: the carry-folding loop ends below `2^16`. -/
theorem foldCarry_lt : ∀ s, foldCarry s < 65536 := by
  intro s
  induction s using foldCarry.induct with
  | case1 s h => rw [foldCarry]; simp [h]
  | case2 s h ih => rw [foldCarry]; simp [h]; omega

/-- Helper: the carry-folding loop preserves the value modulo `0xFFFF`. -/
theorem foldCarry_modeq : ∀ s, foldCarry s % 65535 = s % 65535 := by
  intro s
  induction s using foldCarry.induct with
  | case1 s h => rw [foldCarry]; simp [h]
  | case2 s h ih =>
    rw [foldCarry]
    simp only [h, if_false]
    rw [ih]
    omega

/-- Helper: the carry-folding loop keeps positive values positive. -/
theorem foldCarry_pos : ∀ s, 0 < s → 0 < foldCarry s := by
  intro s
  induction s using foldCarry.induct with
  | case1 s h => intro hp; rw [foldCarry]; simpa [h]
  | case2 s h ih =>
    intro hp
    rw [foldCarry]
    simp only [h, if_false]
    apply ih
    omega

/-- Helper: folding zero gives zero. -/
theorem foldCarry_zero : foldCarry 0 = 0 := by
  rw [foldCarry]
  norm_num

/-- Helper: the per-addition ones'-complement fold stays at most
`0xFFFF`. -/
theorem onesFold_le : ∀ (ws : List Nat) (a : Nat), a ≤ 65535 →
    (∀ w ∈ ws, w ≤ 65535) → ws.foldl onesAdd16 a ≤ 65535 := by
  intro ws
  induction ws with
  | nil => intro a ha _; simpa
  | cons w rest ih =>
    intro a ha hw
    simp only [List.foldl_cons]
    apply ih
    · have := hw w (by simp)
      rw [onesAdd16]
      split
      · omega
      · omega
    · exact fun x hx => hw x (by simp [hx])

/-- Helper: the per-addition fold preserves the value modulo `0xFFFF`. -/
theorem onesFold_modeq : ∀ (ws : List Nat) (a : Nat),
    (ws.foldl onesAdd16 a) % 65535 = (a + ws.sum) % 65535 := by
  intro ws
  induction ws with
  | nil => intro a; simp
  | cons w rest ih =>
    intro a
    simp only [List.foldl_cons, List.sum_cons]
    rw [ih]
    have : onesAdd16 a w % 65535 = (a + w) % 65535 := by
      rw [onesAdd16]
      split
      · rfl
      · omega
    omega

/-- Helper: the per-addition fold keeps positive totals positive. -/
theorem onesFold_pos : ∀ (ws : List Nat) (a : Nat), 0 < a + ws.sum →
    0 < ws.foldl onesAdd16 a := by
  intro ws
  induction ws with
  | nil => intro a h; simpa using h
  | cons w rest ih =>
    intro a h
    simp only [List.foldl_cons]
    apply ih
    simp only [List.sum_cons] at h
    rw [onesAdd16]
    split
    · omega
    · omega

/-- Helper: the per-addition fold of an all-zero total is zero. -/
theorem onesFold_zero : ∀ ws : List Nat, ws.sum = 0 →
    ws.foldl onesAdd16 0 = 0 := by
  intro ws
  induction ws with
  | nil => intro _; rfl
  | cons w rest ih =>
    intro h
    simp only [List.sum_cons] at h
    have hw : w = 0 := by omega
    have hr : rest.sum = 0 := by omega
    simp only [List.foldl_cons, hw]
    have : onesAdd16 0 0 = 0 := by rw [onesAdd16]; norm_num
    rw [this, ih hr]

/-- C5 (amended): for every buffer of at most 131072 bytes (so that the
exact word sum fits the 32-bit accumulator), `calculateChecksum` equals
the textbook RFC 1071 checksum — the complement of the per-addition
end-around-carry ones'-complement sum of the buffer's 16-bit words (with
a trailing odd byte added as a single byte). -/
theorem ping_checksum_c5 (bytes : List Nat) (hb : ∀ b ∈ bytes, b < 256)
    (hlen : bytes.length ≤ 131072) :
    calculateChecksum bytes = rfc1071Checksum bytes := by
  have hw : ∀ w ∈ wordsOf bytes, w ≤ 65535 := wordsOf_le bytes hb
  have hlw : 2 * (wordsOf bytes).length ≤ bytes.length + 1 := wordsOf_len bytes
  have hnw : (wordsOf bytes).length ≤ 65536 := by omega
  have hS1 : (wordsOf bytes).sum ≤ (wordsOf bytes).length * 65535 :=
    sum_le_length_mul _ hw
  have hSlt : (wordsOf bytes).sum < 4294967296 := by
    have : (wordsOf bytes).length * 65535 ≤ 65536 * 65535 :=
      Nat.mul_le_mul_right _ hnw
    omega
  have h1 : sumWordsM 0 bytes = (wordsOf bytes).sum := by
    rw [sumWordsM_eq bytes 0 (by norm_num)]
    simpa using Nat.mod_eq_of_lt hSlt
  have hc_lt : foldCarry ((wordsOf bytes).sum) < 65536 := foldCarry_lt _
  have hc_mod : foldCarry ((wordsOf bytes).sum) % 65535 = (wordsOf bytes).sum % 65535 :=
    foldCarry_modeq _
  have hF_le : (wordsOf bytes).foldl onesAdd16 0 ≤ 65535 :=
    onesFold_le _ 0 (by omega) hw
  have hF_mod : ((wordsOf bytes).foldl onesAdd16 0) % 65535 =
      (wordsOf bytes).sum % 65535 := by
    have := onesFold_modeq (wordsOf bytes) 0
    simpa using this
  have hcF : foldCarry ((wordsOf bytes).sum) = (wordsOf bytes).foldl onesAdd16 0 := by
    by_cases hS : (wordsOf bytes).sum = 0
    · rw [hS, foldCarry_zero, onesFold_zero _ hS]
    · have hc_pos : 0 < foldCarry ((wordsOf bytes).sum) :=
        foldCarry_pos _ (by omega)
      have hF_pos : 0 < (wordsOf bytes).foldl onesAdd16 0 :=
        onesFold_pos _ 0 (by omega)
      omega
  rw [calculateChecksum, rfc1071Checksum, h1, hcF]
  omega

/-- C5 witness: on the three-byte buffer `[1, 2, 3]` (words `0x0201` and
the odd byte `3`) both computations give `0xFFFF - 0x0204 = 65019`. -/
theorem ping_checksum_c5_witness :
    rfc1071Checksum [1, 2, 3] = 65019 ∧ calculateChecksum [1, 2, 3] = 65019 :=
  ⟨by decide, (ping_checksum_c5 [1, 2, 3] (by decide) (by decide)).trans (by decide)⟩

/-- Helper: pairing up an even run of `0xFF` bytes gives `0xFFFF`
words. -/
theorem wordsOf_replicate : ∀ n : Nat,
    wordsOf (List.replicate (2 * n) 255) = List.replicate n 65535 := by
  intro n
  induction n with
  | zero => rfl
  | succ k ih =>
    have h2 : 2 * (k + 1) = (2 * k) + 1 + 1 := by ring
    rw [h2, List.replicate_succ, List.replicate_succ, wordsOf, ih]
    rfl

/-- Helper: sum of a replicated list. -/
theorem sum_replicate_nat : ∀ n x : Nat, (List.replicate n x).sum = n * x := by
  intro n x
  induction n with
  | zero => simp
  | succ k ih =>
    rw [List.replicate_succ, List.sum_cons, ih]
    ring

/-- Helper: the per-addition fold absorbs `0xFFFF` words at `0xFFFF`. -/
theorem onesFold_ffff : ∀ n : Nat,
    (List.replicate n 65535).foldl onesAdd16 65535 = 65535 := by
  intro n
  induction n with
  | zero => rfl
  | succ k ih =>
    rw [List.replicate_succ, List.foldl_cons]
    have : onesAdd16 65535 65535 = 65535 := by rw [onesAdd16]; norm_num
    rw [this, ih]

/-- C5 counterexample to the claim as stated ("for every input buffer"):
on the 131076-byte buffer of `0xFF` bytes (65538 words of `0xFFFF`, exact
sum `2^32 + 65534`) the `uint32_t` accumulator wraps, and the routine
returns `1` while the textbook end-around-carry ones'-complement checksum
is `0`. -/
theorem ping_checksum_c5_counterexample :
    calculateChecksum (List.replicate 131076 255) = 1 ∧
    rfc1071Checksum (List.replicate 131076 255) = 0 ∧
    calculateChecksum (List.replicate 131076 255) ≠
      rfc1071Checksum (List.replicate 131076 255) := by
  have hwords : wordsOf (List.replicate 131076 255) = List.replicate 65538 65535 := by
    have h := wordsOf_replicate 65538
    norm_num at h
    exact h
  have hsum : (wordsOf (List.replicate 131076 255)).sum = 4295032830 := by
    rw [hwords, sum_replicate_nat]
  have hleft : calculateChecksum (List.replicate 131076 255) = 1 := by
    rw [calculateChecksum, sumWordsM_eq _ 0 (by norm_num), hsum]
    norm_num
    have hfold : foldCarry 65534 = 65534 := by rw [foldCarry]; norm_num
    rw [hfold]
  have hright : rfc1071Checksum (List.replicate 131076 255) = 0 := by
    rw [rfc1071Checksum, hwords]
    rw [show (65538 : Nat) = 65537 + 1 from rfl, List.replicate_succ, List.foldl_cons]
    have h0 : onesAdd16 0 65535 = 65535 := by rw [onesAdd16]; norm_num
    rw [h0, onesFold_ffff]
  exact ⟨hleft, hright, by rw [hleft, hright]; norm_num⟩
